import Mathlib

/-!
# Verification of the text-chunking engine (`src/tools/src/bin/chunk.rs`)

Shallow embedding of the `TextChunker` strategies.  Rust strings are
modelled as `List Char` (`Str`); `str::len()` (a byte count) is modelled
by summing `Char.utf8Size`; `chars().count()` is `List.length`.

External collaborators are parameters:
* `uSent : Str → List Str` models `unicode_segmentation`'s
  `unicode_sentences` (UAX #29 sentence segmentation; the library
  guarantees the sentences concatenate back to the input).
* `embed : Str → Option (List ℚ)` models the Ollama embedding call
  (`get_embedding`), `none` being a failed request.
* `cos : List ℚ → List ℚ → ℚ` models the f32 `cosine_similarity`
  function abstractly (floating point is modelled by an oracle; concrete
  instantiations below use exact values that the real function returns
  on the chosen vectors).
* `detect : Str → Option Str` models the dialogue speaker regex capture
  on one line.
-/

abbrev Str := List Char

/-- Byte length of a string, mirroring Rust `str::len()`. -/
def strBytes (s : Str) : Nat := (s.map Char.utf8Size).sum

/-- Rust `char::is_whitespace` (Unicode White_Space property). -/
def rustIsWhitespace (c : Char) : Bool :=
  let n := c.toNat
  (9 ≤ n && n ≤ 13) || n == 32 || n == 133 || n == 160 || n == 5760 ||
  (8192 ≤ n && n ≤ 8202) || n == 8232 || n == 8233 || n == 8239 ||
  n == 8287 || n == 12288

/-- Rust `char::is_ascii_punctuation`. -/
def isAsciiPunct (c : Char) : Bool :=
  let n := c.toNat
  (33 ≤ n && n ≤ 47) || (58 ≤ n && n ≤ 64) || (91 ≤ n && n ≤ 96) ||
  (123 ≤ n && n ≤ 126)

/-- Rust `str::trim_start`. -/
def rustTrimStart (s : Str) : Str := s.dropWhile rustIsWhitespace

/-- Rust `str::trim_end`. -/
def rustTrimEnd (s : Str) : Str := (s.reverse.dropWhile rustIsWhitespace).reverse

/-- Rust `str::trim`. -/
def rustTrim (s : Str) : Str := rustTrimEnd (rustTrimStart s)

/-- Rust `Vec<&str>::join(" ")`. -/
def joinSpace : List Str → Str
  | [] => []
  | [s] => s
  | s :: rest => s ++ ' ' :: joinSpace rest

/-- Rust `Vec<String>::join("\n")`. -/
def joinNl : List Str → Str
  | [] => []
  | [s] => s
  | s :: rest => s ++ '\n' :: joinNl rest

/-- The `Chunk` record of `chunk.rs` (`endPos` models the field `end`,
which is a Lean keyword; `f32` fields are modelled over `ℚ`). -/
structure Chunk where
  content : Str
  start : Nat
  endPos : Nat
  index : Nat
  size : Nat
  overlap : Nat
  strategy : String
  similarity : Option ℚ
  embedding : Option (List ℚ)
  source : Option String
deriving Repr, DecidableEq

/-! ## FixedWindow (`TextChunker::chunk_fixed`) -/

/-- The loop of `chunk_fixed`: `start` is the window start (in chars),
`index` the running chunk index.  Terminates because each continuing
iteration advances `start` by `step ≥ 1` while `start` stays `< total`. -/
def chunkFixedLoop (tc : Str) (size overlap : Nat) (start index : Nat) :
    List Chunk :=
  let total := tc.length
  let e := min (start + size) total
  let content := (tc.drop start).take (e - start)
  let actualOverlap := if index > 0 then min overlap (e - start) else 0
  let c : Chunk :=
    { content := content, start := start, endPos := e, index := index,
      size := e - start, overlap := actualOverlap, strategy := "fixed",
      similarity := none, embedding := none, source := none }
  if _h : total ≤ e then [c]
  else
    let step := if overlap < size then size - overlap else 1
    let start' := min (start + step) total
    if _h2 : total ≤ start' then [c]
    else c :: chunkFixedLoop tc size overlap start' (index + 1)
termination_by tc.length - start
decreasing_by
  simp only [not_le] at _h _h2
  unfold start' step at _h2
  unfold e at _h
  have h1 : 1 ≤ (if _h3 : overlap < size then size - overlap else 1) := by
    split <;> omega
  omega

/-- `TextChunker::chunk_fixed`. -/
def chunkFixed (text : Str) (size overlap : Nat) : List Chunk :=
  if text.length = 0 then [] else chunkFixedLoop text size overlap 0 0

/-! ## Sentence (`TextChunker::chunk_sentence`)

The Rust code first computes `text.unicode_sentences()`; the segmenter is
an external library call, so the loop is embedded over the resulting
sentence list.  UAX #29 sentence segmentation partitions the input, i.e.
the sentences concatenate back to the text. -/

/-- A chunk as pushed by `chunk_sentence` from the accumulated (untrimmed)
text `current`. -/
def mkSentenceChunk (current : Str) (index : Nat) : Chunk :=
  { content := rustTrim current, start := 0, endPos := current.length,
    index := index, size := current.length, overlap := 0,
    strategy := "sentence", similarity := none, embedding := none,
    source := none }

/-- The accumulation loop of `chunk_sentence` (sizes are `chars().count()`,
i.e. `List.length`). -/
def chunkSentenceLoop (targetSize : Nat) :
    List Str → Str → Nat → List Chunk
  | [], current, index =>
      if current = [] then [] else [mkSentenceChunk current index]
  | s :: rest, current, index =>
      if current.length + s.length > targetSize ∧ current ≠ [] then
        mkSentenceChunk current index ::
          chunkSentenceLoop targetSize rest s (index + 1)
      else
        chunkSentenceLoop targetSize rest (current ++ s) index

/-- `TextChunker::chunk_sentence`, over the sentence list. -/
def chunkSentence (sentences : List Str) (targetSize : Nat) : List Chunk :=
  chunkSentenceLoop targetSize sentences [] 0

/-- `TextChunker::chunk_sentence` from the text, given the segmenter. -/
def chunkSentenceText (uSent : Str → List Str) (text : Str)
    (targetSize : Nat) : List Chunk :=
  chunkSentence (uSent text) targetSize

/-! ## Paragraph (`TextChunker::chunk_paragraph`) -/

/-- Rust `text.split("\n\n")` (non-overlapping, left to right). -/
def splitOnNlNl : Str → List Str
  | [] => [[]]
  | '\n' :: '\n' :: cs => [] :: splitOnNlNl cs
  | c :: cs =>
      match splitOnNlNl cs with
      | [] => [[c]]
      | p :: ps => (c :: p) :: ps

/-- A chunk as pushed by `chunk_paragraph`. -/
def mkParagraphChunk (current : Str) (index : Nat) : Chunk :=
  { content := rustTrim current, start := 0, endPos := current.length,
    index := index, size := current.length, overlap := 0,
    strategy := "paragraph", similarity := none, embedding := none,
    source := none }

/-- The accumulation loop of `chunk_paragraph`; paragraphs in one chunk
are rejoined with a blank line. -/
def chunkParagraphLoop (targetSize : Nat) :
    List Str → Str → Nat → List Chunk
  | [], current, index =>
      if current = [] then [] else [mkParagraphChunk current index]
  | p :: rest, current, index =>
      if current.length + p.length > targetSize ∧ current ≠ [] then
        mkParagraphChunk current index ::
          chunkParagraphLoop targetSize rest p (index + 1)
      else
        chunkParagraphLoop targetSize rest
          (if current = [] then p else current ++ ('\n' :: '\n' :: p)) index

/-- `TextChunker::chunk_paragraph`. -/
def chunkParagraph (text : Str) (targetSize : Nat) : List Chunk :=
  chunkParagraphLoop targetSize (splitOnNlNl text) [] 0

/-! ## Code (`TextChunker::chunk_code`) -/

/-- Rust `str::lines`: split on `'\n'`, drop one trailing `'\r'` per line,
no final empty line for a trailing newline, `[]` for the empty string. -/
def splitOnChar (sep : Char) : Str → List Str
  | [] => [[]]
  | c :: cs =>
      if c = sep then [] :: splitOnChar sep cs
      else
        match splitOnChar sep cs with
        | [] => [[c]]
        | p :: ps => (c :: p) :: ps

/-- Strip one trailing carriage return (part of Rust `str::lines`). -/
def stripCr (s : Str) : Str :=
  match s.reverse with
  | '\r' :: rest => rest.reverse
  | _ => s

/-- Rust `str::lines`. -/
def rustLines (s : Str) : List Str :=
  if s = [] then []
  else
    let parts := splitOnChar '\n' s
    (if parts.getLast? = some [] then parts.dropLast else parts).map stripCr

/-- The boundary-line heuristic of `chunk_code`. -/
def isCodeBoundary (line : Str) : Bool :=
  let t := rustTrimStart line
  "fn ".toList.isPrefixOf t || "function ".toList.isPrefixOf t ||
  "class ".toList.isPrefixOf t || "def ".toList.isPrefixOf t ||
  "impl ".toList.isPrefixOf t || "struct ".toList.isPrefixOf t

/-- A chunk as pushed by `chunk_code` (sizes in bytes, `source` records
the covered line range). -/
def mkCodeChunk (current : Str) (startLine curLine index : Nat) : Chunk :=
  { content := rustTrimEnd current, start := startLine, endPos := curLine,
    index := index, size := strBytes current, overlap := 0,
    strategy := "code", similarity := none, embedding := none,
    source := some ("lines " ++ Nat.repr (startLine + 1) ++ "-" ++
      Nat.repr curLine) }

/-- The line loop of `chunk_code`. -/
def chunkCodeLoop (targetSize : Nat) :
    List Str → Str → Nat → Nat → Nat → List Chunk
  | [], current, startLine, curLine, index =>
      if current = [] then []
      else [mkCodeChunk current startLine curLine index]
  | line :: rest, current, startLine, curLine, index =>
      if strBytes current + strBytes line > targetSize ∧ current ≠ [] ∧
          isCodeBoundary line then
        mkCodeChunk current startLine curLine index ::
          chunkCodeLoop targetSize rest (line ++ ['\n']) curLine
            (curLine + 1) (index + 1)
      else
        chunkCodeLoop targetSize rest (current ++ line ++ ['\n']) startLine
          (curLine + 1) index

/-- `TextChunker::chunk_code`. -/
def chunkCode (text : Str) (targetSize : Nat) : List Chunk :=
  chunkCodeLoop targetSize (rustLines text) [] 0 0 0

/-! ## Dialogue (`TextChunker::chunk_dialogue`)

The speaker regex is external (`regex` crate): `patternOk` models whether
the caller-supplied pattern compiles, and `detect line` models
`speaker_regex.captures(line)` returning capture group 1. -/

/-- The single-chunk fallback used when the regex fails to compile. -/
def dialogueRegexErrChunk (text : Str) : Chunk :=
  { content := text, start := 0, endPos := strBytes text, index := 0,
    size := strBytes text, overlap := 0, strategy := "dialogue",
    similarity := none, embedding := none,
    source := some "regex parse error - treated as single chunk" }

/-- The single-chunk fallback used when `chunks` is empty at the end. -/
def dialogueNoSpeakerChunk (text : Str) : Chunk :=
  { content := text, start := 0, endPos := strBytes text, index := 0,
    size := strBytes text, overlap := 0, strategy := "dialogue",
    similarity := none, embedding := none,
    source := some "no speakers detected - treated as single chunk" }

/-- A chunk flushed by `chunk_dialogue` for one speaker turn.
`speaker` is `current_speaker` at flush time. -/
def mkDialogueChunk (lines : List Str) (startPos startLine lastLine : Nat)
    (speaker : Option Str) (index : Nat) : Chunk :=
  let t := joinNl lines
  { content := t, start := startPos, endPos := startPos + strBytes t,
    index := index, size := strBytes t, overlap := 0,
    strategy := "dialogue", similarity := none, embedding := none,
    source := some ("speaker: " ++
      (match speaker with
       | some sp => String.mk sp
       | none => "Unknown") ++
      " (lines " ++ Nat.repr (startLine + 1) ++ "-" ++ Nat.repr lastLine ++
      ")") }

/-- The line loop of `chunk_dialogue`.  State mirrors the Rust locals:
`lineIdx`/`charPos` advance per line, `chunkStartLine`/`chunkStartPos`
mark the open turn, `speaker` is `current_speaker`, `cur` is
`current_chunk_lines`, `chunks` the accumulator. -/
def chunkDialogueLoop (detect : Str → Option Str) (totalLines : Nat) :
    List Str → Nat → Nat → Nat → Nat → Option Str → List Str →
    List Chunk → List Chunk
  | [], _, _, chunkStartLine, chunkStartPos, speaker, cur, chunks =>
      if cur = [] then chunks
      else chunks ++
        [mkDialogueChunk cur chunkStartPos chunkStartLine totalLines
          speaker chunks.length]
  | line :: rest, lineIdx, charPos, chunkStartLine, chunkStartPos,
      speaker, cur, chunks =>
      match (detect line).map rustTrim with
      | some ns =>
          if speaker ≠ some ns ∧ cur ≠ [] then
            let c := mkDialogueChunk cur chunkStartPos chunkStartLine
              lineIdx speaker chunks.length
            chunkDialogueLoop detect totalLines rest (lineIdx + 1)
              (charPos + strBytes line + 1) lineIdx charPos (some ns)
              [line] (chunks ++ [c])
          else
            chunkDialogueLoop detect totalLines rest (lineIdx + 1)
              (charPos + strBytes line + 1) chunkStartLine chunkStartPos
              (some ns) (cur ++ [line]) chunks
      | none =>
          chunkDialogueLoop detect totalLines rest (lineIdx + 1)
            (charPos + strBytes line + 1) chunkStartLine chunkStartPos
            speaker (cur ++ [line]) chunks

/-- `TextChunker::chunk_dialogue`. -/
def chunkDialogue (patternOk : Bool) (detect : Str → Option Str)
    (text : Str) : List Chunk :=
  if ¬ patternOk then [dialogueRegexErrChunk text]
  else
    let lines := rustLines text
    let chunks := chunkDialogueLoop detect lines.length lines 0 0 0 0
      none [] []
    if chunks = [] then [dialogueNoSpeakerChunk text] else chunks

/-! ## TokenAware (`TextChunker::chunk_token_aware`) -/

/-- Rust `str::split_whitespace` (auxiliary accumulator form). -/
def splitWsAux : Str → Str → List Str
  | [], cur => if cur = [] then [] else [cur]
  | c :: cs, cur =>
      if rustIsWhitespace c then
        if cur = [] then splitWsAux cs [] else cur :: splitWsAux cs []
      else splitWsAux cs (cur ++ [c])

/-- Rust `str::split_whitespace`. -/
def splitWs (s : Str) : List Str := splitWsAux s []

/-- `TextChunker::count_tokens`.  For `"gpt"` the Rust code computes
`(len as f32 / 4.0).ceil() as usize`, exact for the representable range;
modelled as the `Nat` ceiling. -/
def countTokens (tok : String) (s : Str) : Nat :=
  if tok = "word" then
    ((splitWs s).map (fun w => 1 + (w.filter isAsciiPunct).length)).sum
  else if tok = "gpt" then (strBytes s + 3) / 4
  else (splitWs s).length

/-- The word loop of `TextChunker::split_by_words`. -/
def splitByWordsLoop (tok : String) (tokenLimit : Nat) :
    List Str → List Str → Nat → List Str
  | [], cur, _ => if cur = [] then [] else [joinSpace cur]
  | w :: ws, cur, count =>
      let wt := countTokens tok w
      if count + wt > tokenLimit ∧ cur ≠ [] then
        joinSpace cur :: splitByWordsLoop tok tokenLimit ws [w] wt
      else
        splitByWordsLoop tok tokenLimit ws (cur ++ [w]) (count + wt)

/-- `TextChunker::split_by_words`. -/
def splitByWords (sentence : Str) (tokenLimit : Nat) (tok : String) :
    List Str :=
  let chunks := splitByWordsLoop tok tokenLimit (splitWs sentence) [] 0
  if chunks = [] then [sentence] else chunks

/-- A chunk flushed from accumulated sentences by `chunk_token_aware`
(`content` is the sentences joined with the empty separator). -/
def mkTokenChunk (group : List Str) (startPos count tokenLimit index : Nat) :
    Chunk :=
  let t := group.flatten
  { content := t, start := startPos, endPos := startPos + strBytes t,
    index := index, size := strBytes t, overlap := 0,
    strategy := "token-aware", similarity := none, embedding := none,
    source := some ("tokens: " ++ Nat.repr count ++ " (limit: " ++
      Nat.repr tokenLimit ++ ")") }

/-- A chunk emitted by the oversized-sentence word-split fallback. -/
def mkTokenSplitChunk (w : Str) (charPos tokenLimit index : Nat) : Chunk :=
  { content := w, start := charPos, endPos := charPos + strBytes w,
    index := index, size := strBytes w, overlap := 0,
    strategy := "token-aware", similarity := none, embedding := none,
    source := some ("split sentence tokens: ~" ++
      (Nat.repr tokenLimit ++ " (limit: " ++ Nat.repr tokenLimit ++ ")")) }

/-- Append the word-split chunks of one oversized sentence, advancing
`charPos` and `index` per emitted piece. -/
def pushSplitChunks (tokenLimit : Nat) :
    List Str → Nat → Nat → List Chunk × Nat × Nat
  | [], charPos, index => ([], charPos, index)
  | w :: ws, charPos, index =>
      let (cs, p, i) :=
        pushSplitChunks tokenLimit ws (charPos + strBytes w) (index + 1)
      (mkTokenSplitChunk w charPos tokenLimit index :: cs, p, i)

/-- The sentence loop of `chunk_token_aware`.  State: accumulated
sentences `cur`, their summed token count `count`, `index`, `charPos`,
`chunkStartPos`, accumulated `chunks`. -/
def chunkTokenAwareLoop (tok : String) (tokenLimit : Nat) :
    List Str → List Str → Nat → Nat → Nat → Nat → List Chunk → List Chunk
  | [], cur, count, index, _, chunkStartPos, chunks =>
      if cur = [] then chunks
      else chunks ++ [mkTokenChunk cur chunkStartPos count tokenLimit index]
  | s :: rest, cur, count, index, charPos, chunkStartPos, chunks =>
      let st := countTokens tok s
      -- first flush: adding `s` would exceed the limit
      let (cur₁, count₁, index₁, startPos₁, chunks₁) :=
        if count + st > tokenLimit ∧ cur ≠ [] then
          (([] : List Str), 0, index + 1, charPos,
            chunks ++ [mkTokenChunk cur chunkStartPos count tokenLimit index])
        else (cur, count, index, chunkStartPos, chunks)
      if st > tokenLimit then
        -- second flush (no-op when the first one ran), then word-split
        let (cur₂, count₂, index₂, _startPos₂, chunks₂) :=
          if cur₁ ≠ [] then
            (([] : List Str), 0, index₁ + 1, charPos,
              chunks₁ ++
                [mkTokenChunk cur₁ startPos₁ count₁ tokenLimit index₁])
          else (cur₁, count₁, index₁, startPos₁, chunks₁)
        let (wcs, charPos', index') :=
          pushSplitChunks tokenLimit (splitByWords s tokenLimit tok)
            charPos index₂
        chunkTokenAwareLoop tok tokenLimit rest cur₂ count₂ index' charPos'
          charPos' (chunks₂ ++ wcs)
      else
        chunkTokenAwareLoop tok tokenLimit rest (cur₁ ++ [s]) (count₁ + st)
          index₁ (charPos + strBytes s) startPos₁ chunks₁

/-- The whole-text fallback chunk of `chunk_token_aware`. -/
def tokenAwareFallbackChunk (text : Str) (tokenLimit : Nat) (tok : String) :
    Chunk :=
  { content := text, start := 0, endPos := strBytes text, index := 0,
    size := strBytes text, overlap := 0, strategy := "token-aware",
    similarity := none, embedding := none,
    source := some ("tokens: " ++ Nat.repr (countTokens tok text) ++
      " (limit: " ++ Nat.repr tokenLimit ++ ")") }

/-- `TextChunker::chunk_token_aware`. -/
def chunkTokenAware (uSent : Str → List Str) (text : Str)
    (tokenLimit : Nat) (tok : String) : List Chunk :=
  let chunks := chunkTokenAwareLoop tok tokenLimit (uSent text) [] 0 0 0 0 []
  if chunks = [] then [tokenAwareFallbackChunk text tokenLimit tok]
  else chunks

/-! ## Semantic (`TextChunker::chunk_semantic`)

`get_embedding` is an external HTTP call, modelled by
`embed : Str → Option (List ℚ)`; a failed request (`none`) is replaced
by `vec![0.0; 768]` exactly as in the code.  `cosine_similarity` runs on
`f32`; it is modelled by the oracle `cos`. -/

/-- The per-sentence embedding list built by `chunk_semantic`, with the
hardcoded 768-dimensional zero-vector fallback. -/
def semanticEmbeddings (embed : Str → Option (List ℚ))
    (sentences : List Str) : List (List ℚ) :=
  sentences.map fun s => (embed s).getD (List.replicate 768 0)

/-- The grouping walk of `chunk_semantic` over sentence indices
`i = 1 .. sentences.length - 1`, then the final-group push.  The Rust
`for i in 1..sentences.len()` loop runs a fixed number of iterations, so
it is compiled with the remaining iteration count `n` (the caller passes
`n = sentences.length - i`) as the structural argument. -/
def semGroupLoop (sentences : List Str) (embeddings : List (List ℚ))
    (cos : List ℚ → List ℚ → ℚ) (threshold : ℚ) :
    Nat → Nat → List Nat → Nat → List Chunk → List Chunk
  | 0, _, group, curStart, chunks =>
      if group = [] then chunks
      else
        let t := joinSpace (group.map fun idx => sentences.getD idx [])
        chunks ++
          [{ content := t, start := curStart,
             endPos := curStart + strBytes t, index := chunks.length,
             size := strBytes t, overlap := 0, strategy := "semantic",
             similarity := none,
             embedding := group.getLast?.bind
               (fun idx => embeddings.get? idx),
             source := none }]
  | n + 1, i, group, curStart, chunks =>
      let sim := cos (embeddings.getD (i - 1) []) (embeddings.getD i [])
      if sim < threshold then
        let t := joinSpace (group.map fun idx => sentences.getD idx [])
        let c : Chunk :=
          { content := t, start := curStart, endPos := curStart + strBytes t,
            index := chunks.length, size := strBytes t, overlap := 0,
            strategy := "semantic", similarity := some sim,
            embedding := some (embeddings.getD (i - 1) []), source := none }
        semGroupLoop sentences embeddings cos threshold n (i + 1) [i]
          (curStart + strBytes t) (chunks ++ [c])
      else
        semGroupLoop sentences embeddings cos threshold n (i + 1)
          (group ++ [i]) curStart chunks

/-- `TextChunker::chunk_semantic` (never returns an error: embedding
failures are recovered by the zero-vector fallback). -/
def chunkSemantic (uSent : Str → List Str)
    (embed : Str → Option (List ℚ)) (cos : List ℚ → List ℚ → ℚ)
    (threshold : ℚ) (text : Str) : List Chunk :=
  let sentences := uSent text
  if sentences = [] then []
  else
    semGroupLoop sentences (semanticEmbeddings embed sentences) cos
      threshold (sentences.length - 1) 1 [0] 0 []

/-! ## Smart (`TextChunker::chunk_smart`)

`chunk_semantic` is infallible (its `Result` is always `Ok`), so the
`Err` fallback branch of `chunk_smart` is dead code and the embedded
version is the `Ok` path. -/

/-- One step of `chunk_smart`'s loop over the semantic chunks: keep a
chunk of size `≤ 2 * size`, else replace it by its content re-chunked by
sentence, relabelled `"smart"` with `index = smart_chunks.len()` at push
time.  (The unused `overlap` argument of `chunk_sentence` is dropped.) -/
def smartStep (uSent : Str → List Str) (size : Nat) (acc : List Chunk)
    (chunk : Chunk) : List Chunk :=
  if chunk.size ≤ size * 2 then acc ++ [chunk]
  else
    let subs := chunkSentence (uSent chunk.content) size
    acc ++ subs.enum.map
      (fun p => { p.2 with strategy := "smart", index := acc.length + p.1 })

/-- `TextChunker::chunk_smart`. -/
def chunkSmart (uSent : Str → List Str) (embed : Str → Option (List ℚ))
    (cos : List ℚ → List ℚ → ℚ) (threshold : ℚ) (text : Str)
    (size : Nat) : List Chunk :=
  (chunkSemantic uSent embed cos threshold text).foldl
    (smartStep uSent size) []

/-! ## Recursive (`TextChunker::chunk_recursive` / `recursive_split`)

`str::split_at` panics when the byte index is not a char boundary;
`splitAtByteChecked` returns `none` there and the embedding propagates
it as `RsErr.panic`.  The Rust recursion has no structural bound, so the
embedding carries fuel; `RsErr.fuelOut` marks exhaustion (with enough
fuel it never occurs on terminating runs). -/

/-- Outcome of a run that may panic or exhaust its fuel. -/
inductive RsErr
  | panic
  | fuelOut
deriving Repr, DecidableEq

/-- Rust `str::split_at` on a byte index: `none` models the panic on a
non-boundary (or out-of-range) index. -/
def splitAtByteChecked : Str → Nat → Option (Str × Str)
  | s, 0 => some ([], s)
  | [], _ + 1 => none
  | c :: cs, n + 1 =>
      if c.utf8Size ≤ n + 1 then
        (splitAtByteChecked cs (n + 1 - c.utf8Size)).map
          (fun p => (c :: p.1, p.2))
      else none

/-- Drop a prefix of the given byte length (used where the Rust code
re-slices at byte offsets that are boundaries by construction). -/
def dropBytes : Str → Nat → Str
  | s, 0 => s
  | [], _ + 1 => []
  | c :: cs, n + 1 =>
      if c.utf8Size ≤ n + 1 then dropBytes cs (n + 1 - c.utf8Size)
      else c :: cs

/-- The `best_split.filter(|&pos| pos > 0 && pos < text.len())` step. -/
def filterPos (text : Str) : Option Nat → Option Nat
  | some pos =>
      if 0 < pos ∧ pos < strBytes text then some pos else none
  | none => none

/-- The sentence walk of `find_sentence_split_point`. -/
def fsspLoop (maxSize : Nat) : List Str → Nat → Option Nat → Option Nat
  | [], _, best => best
  | s :: rest, cur, best =>
      let next := cur + strBytes s
      if next ≤ maxSize then fsspLoop maxSize rest next (some next)
      else best

/-- `TextChunker::find_sentence_split_point`. -/
def findSentenceSplitPoint (uSent : Str → List Str) (text : Str)
    (maxSize : Nat) : Option Nat :=
  filterPos text (fsspLoop maxSize (uSent text) 0 none)

/-- The paragraph walk of `find_paragraph_split_point` (`+2` for the
`"\n\n"` separator). -/
def fpspLoop (maxSize textLen : Nat) :
    List Str → Nat → Option Nat → Option Nat
  | [], _, best => best
  | p :: rest, cur, best =>
      let next := cur + strBytes p + 2
      if next ≤ maxSize ∧ next < textLen then
        fpspLoop maxSize textLen rest next (some next)
      else best

/-- `TextChunker::find_paragraph_split_point`. -/
def findParagraphSplitPoint (text : Str) (maxSize : Nat) : Option Nat :=
  filterPos text (fpspLoop maxSize (strBytes text) (splitOnNlNl text) 0 none)

/-- Rust `str::find` for a literal substring: byte offset of its first
occurrence. -/
def findSub : Str → Str → Option Nat
  | [], needle => if needle = [] then some 0 else none
  | c :: cs, needle =>
      if needle.isPrefixOf (c :: cs) then some 0
      else (findSub cs needle).map (· + c.utf8Size)

/-- The word walk of `find_word_split_point`. -/
def fwspLoop (maxSize textLen : Nat) :
    List Str → Str → Nat → Option Nat → Option Nat
  | [], _, _, best => best
  | w :: ws, remaining, curPos, best =>
      match findSub remaining w with
      | none => best
      | some wordStart =>
          let wordEnd := wordStart + strBytes w
          let next := curPos + wordEnd
          let wsBytes :=
            strBytes ((dropBytes remaining wordEnd).takeWhile
              rustIsWhitespace)
          let nextWs := next + wsBytes
          if nextWs ≤ maxSize ∧ nextWs < textLen then
            fwspLoop maxSize textLen ws
              (dropBytes remaining (wordEnd + wsBytes)) nextWs (some nextWs)
          else best

/-- `TextChunker::find_word_split_point`. -/
def findWordSplitPoint (text : Str) (maxSize : Nat) : Option Nat :=
  filterPos text (fwspLoop maxSize (strBytes text) (splitWs text) text 0 none)

/-- A chunk pushed by `recursive_split`. -/
def mkRecursiveChunk (text : Str) (offset index : Nat) (src : String) :
    Chunk :=
  { content := text, start := offset, endPos := offset + strBytes text,
    index := index, size := strBytes text, overlap := 0,
    strategy := "recursive", similarity := none, embedding := none,
    source := some src }

/-- `TextChunker::recursive_split` (state-threaded `chunks`/`chunk_index`,
fuel-bounded recursion). -/
def recursiveSplit (uSent : Str → List Str) :
    Nat → Str → Nat → Nat → Nat → List Chunk → Nat →
    Except RsErr (List Chunk × Nat)
  | 0, _, _, _, _, _, _ => .error .fuelOut
  | fuel + 1, text, offset, maxSize, minSize, chunks, index =>
      if strBytes text ≤ maxSize then
        if strBytes text ≥ minSize ∨ chunks = [] then
          .ok (chunks ++
            [mkRecursiveChunk text offset index
              ("recursive split (size: " ++ Nat.repr (strBytes text) ++
                ")")], index + 1)
        else .ok (chunks, index)
      else
        match findSentenceSplitPoint uSent text maxSize with
        | some sp =>
            match splitAtByteChecked text sp with
            | none => .error .panic
            | some (l, r) => do
                let (cs₁, i₁) ← recursiveSplit uSent fuel (rustTrimEnd l)
                  offset maxSize minSize chunks index
                recursiveSplit uSent fuel (rustTrimStart r)
                  (offset + strBytes l) maxSize minSize cs₁ i₁
        | none =>
        match findParagraphSplitPoint text maxSize with
        | some sp =>
            match splitAtByteChecked text sp with
            | none => .error .panic
            | some (l, r) => do
                let (cs₁, i₁) ← recursiveSplit uSent fuel (rustTrimEnd l)
                  offset maxSize minSize chunks index
                recursiveSplit uSent fuel (rustTrimStart r)
                  (offset + strBytes l) maxSize minSize cs₁ i₁
        | none =>
        match findWordSplitPoint text maxSize with
        | some sp =>
            match splitAtByteChecked text sp with
            | none => .error .panic
            | some (l, r) => do
                let (cs₁, i₁) ← recursiveSplit uSent fuel (rustTrimEnd l)
                  offset maxSize minSize chunks index
                recursiveSplit uSent fuel (rustTrimStart r)
                  (offset + strBytes l) maxSize minSize cs₁ i₁
        | none =>
          if maxSize < strBytes text then
            match splitAtByteChecked text maxSize with
            | none => .error .panic
            | some (l, r) => do
                let (cs₁, i₁) ← recursiveSplit uSent fuel l offset maxSize
                  minSize chunks index
                recursiveSplit uSent fuel r (offset + strBytes l) maxSize
                  minSize cs₁ i₁
          else
            .ok (chunks ++
              [mkRecursiveChunk text offset index
                "recursive split (character boundary)"], index + 1)

/-- `TextChunker::chunk_recursive`. -/
def chunkRecursive (uSent : Str → List Str) (fuel : Nat) (text : Str)
    (maxSize minSize : Nat) : Except RsErr (List Chunk) :=
  match recursiveSplit uSent fuel text 0 maxSize minSize [] 0 with
  | .error e => .error e
  | .ok (chunks, _) =>
      .ok (if chunks = [] then
        [mkRecursiveChunk text 0 0 "entire document (no splitting needed)"]
      else chunks)

/-! ## Concrete collaborator instances

`uSentFix` records the UAX #29 (default rules, as implemented by the
`unicode-segmentation` crate) sentence segmentation of every concrete
string used below; a string containing no sentence break is one
sentence, the empty string has none.  The listed cases follow the
default rules: a break after `ATerm Sp+` when an uppercase letter
follows (SB8a/SB11), trailing spaces attach to the preceding sentence. -/
def uSentFix (s : Str) : List Str :=
  if s = "Hi. ".toList then ["Hi. ".toList]
  else if s = "A. B. C.".toList then
    ["A. ".toList, "B. ".toList, "C.".toList]
  else if s = "Aa. Bb. Cc.".toList then
    ["Aa. ".toList, "Bb. ".toList, "Cc.".toList]
  else if s = "Aa.  Bb. ".toList then
    ["Aa.  ".toList, "Bb. ".toList]
  else if s = "ab. XXXXXXXXXXXXXXXXXXXX".toList then
    ["ab. ".toList, "XXXXXXXXXXXXXXXXXXXX".toList]
  else if s = "Ss. Tt.".toList then
    ["Ss. ".toList, "Tt.".toList]
  else if s = [] then []
  else [s]

/-- Concrete stand-in for the f32 `cosine_similarity`.  On the pairs of
distinct or unit basis vectors arising in the counterexample runs below
it agrees with the Rust function (equal unit vectors have cosine `1`,
distinct unit basis vectors are orthogonal, a length mismatch yields
`0`).  On a pair of equal ZERO vectors it returns `1` where the Rust
zero-magnitude guard returns `0`; the theorems below quantify over the
cosine oracle, so none of them depends on that case — in a run where it
occurs (all requests failed) it only makes the grouping differ from the
real one, not the per-chunk property being proved. -/
def cosC (a b : List ℚ) : ℚ := if a = b then 1 else 0

/-- Concrete embedding provider for the Smart index run: unit vectors
chosen so the first two sentences are similar and the third is not. -/
def embedC1 (s : Str) : Option (List ℚ) :=
  if s = "Aa. ".toList then some [1, 0]
  else if s = "Bb. ".toList then some [1, 0]
  else if s = "Cc.".toList then some [0, 1]
  else none

/-- Concrete embedding provider with declared dimensionality 4 whose
request for the second sentence fails. -/
def embedC8 (s : Str) : Option (List ℚ) :=
  if s = "Ss. ".toList then some [1, 0, 0, 0] else none

deriving instance DecidableEq for Except

set_option maxRecDepth 4000

/-! ## Derived size measures and loop-step abbreviations -/

/-- Total content bytes of a chunk list (for coverage accounting). -/
def contentBytes (cs : List Chunk) : Nat :=
  (cs.map (fun c => strBytes c.content)).sum

/-- Total bytes of a list of strings. -/
def sumBytes (l : List Str) : Nat := (l.map strBytes).sum

/-- Total bytes of paragraphs rejoined with `"\n\n"`. -/
def sepBytes : List Str → Nat
  | [] => 0
  | [p] => strBytes p
  | p :: rest => strBytes p + 2 + sepBytes rest

def fixedStep (size overlap : Nat) : Nat :=
  if overlap < size then size - overlap else 1

def fixedChunkAt (tc : Str) (size overlap start index : Nat) : Chunk :=
  { content := (tc.drop start).take (min (start + size) tc.length - start),
    start := start, endPos := min (start + size) tc.length, index := index,
    size := min (start + size) tc.length - start,
    overlap := if index > 0 then
      min overlap (min (start + size) tc.length - start) else 0,
    strategy := "fixed", similarity := none, embedding := none,
    source := none }

/-- Bytes of the sentences at positions `i, …, i+n-1`. -/
def restBytes (sentences : List Str) : Nat → Nat → Nat
  | 0, _ => 0
  | n + 1, i => strBytes (sentences.getD i []) + restBytes sentences n (i + 1)

/-- Bytes of the sentences selected by an index group. -/
def groupBytes (sentences : List Str) (group : List Nat) : Nat :=
  ((group.map fun idx => sentences.getD idx []).map strBytes).sum

/-- A chunk of `chunk_token_aware` either comes from the oversized-
sentence word-split fallback (recognizable by its `source` annotation)
or respects the token budget. -/
def TokenOk (tok : String) (limit : Nat) (c : Chunk) : Prop :=
  (∃ k, c.source = some ("split sentence tokens: ~" ++ k)) ∨
  countTokens tok c.content ≤ limit

/-! ## Basic string lemmas -/

theorem strBytes_append (a b : Str) :
    strBytes (a ++ b) = strBytes a + strBytes b := by
  simp [strBytes]

theorem strBytes_sublist {a b : Str} (h : a.Sublist b) :
    strBytes a ≤ strBytes b :=
  List.Sublist.sum_le_sum (h.map Char.utf8Size) (by simp)

theorem rustTrimEnd_sublist (s : Str) : (rustTrimEnd s).Sublist s := by
  have := (List.dropWhile_sublist (p := rustIsWhitespace)
    (l := s.reverse)).reverse
  simpa [rustTrimEnd] using this

theorem rustTrim_sublist (s : Str) : (rustTrim s).Sublist s :=
  (rustTrimEnd_sublist _).trans (List.dropWhile_sublist _)

theorem strBytes_trimEnd_le (s : Str) : strBytes (rustTrimEnd s) ≤ strBytes s :=
  strBytes_sublist (rustTrimEnd_sublist s)

theorem strBytes_trim_le (s : Str) : strBytes (rustTrim s) ≤ strBytes s :=
  strBytes_sublist (rustTrim_sublist s)

theorem length_trim_le (s : Str) : (rustTrim s).length ≤ s.length :=
  (rustTrim_sublist s).length_le

theorem length_trimEnd_le (s : Str) : (rustTrimEnd s).length ≤ s.length :=
  (rustTrimEnd_sublist s).length_le

theorem strBytes_flatten (l : List Str) :
    strBytes l.flatten = sumBytes l := by
  induction l with
  | nil => rfl
  | cons x xs ih => simp [sumBytes, strBytes_append, ih, List.flatten]

/-! ## Sentence loop lemmas -/

/-- Every chunk the sentence loop emits is built by `mkSentenceChunk`
from some accumulated raw text. -/
theorem chunkSentenceLoop_shape (targetSize : Nat) :
    ∀ (rest : List Str) (current : Str) (index : Nat),
      ∀ c ∈ chunkSentenceLoop targetSize rest current index,
        ∃ raw i, c = mkSentenceChunk raw i := by
  intro rest
  induction rest with
  | nil =>
      intro current index c hc
      simp only [chunkSentenceLoop] at hc
      split at hc
      · simp at hc
      · simp at hc
        exact ⟨current, index, hc⟩
  | cons s rest ih =>
      intro current index c hc
      simp only [chunkSentenceLoop] at hc
      split at hc
      · rcases List.mem_cons.mp hc with h | h
        · exact ⟨current, index, h⟩
        · exact ih _ _ c h
      · exact ih _ _ c hc

/-- The raw accumulated texts of the sentence loop partition
`current ++ rest.flatten`. -/
theorem chunkSentenceLoop_raws (targetSize : Nat) :
    ∀ (rest : List Str) (current : Str) (index : Nat),
      ∃ raws : List Str,
        (chunkSentenceLoop targetSize rest current index).map Chunk.content
          = raws.map rustTrim ∧
        raws.flatten = current ++ rest.flatten := by
  intro rest
  induction rest with
  | nil =>
      intro current index
      by_cases h : current = []
      · exact ⟨[], by simp [chunkSentenceLoop, h]⟩
      · exact ⟨[current], by simp [chunkSentenceLoop, h, mkSentenceChunk]⟩
  | cons s rest ih =>
      intro current index
      by_cases h : current.length + s.length > targetSize ∧ current ≠ []
      · obtain ⟨raws, h1, h2⟩ := ih s (index + 1)
        refine ⟨current :: raws, ?_, ?_⟩
        · simp [chunkSentenceLoop, h, mkSentenceChunk, h1]
        · simp [h2, List.flatten]
      · obtain ⟨raws, h1, h2⟩ := ih (current ++ s) index
        refine ⟨raws, ?_, ?_⟩
        · simp [chunkSentenceLoop, h, h1]
        · simp [h2, List.flatten]

/-- Chunk indices of the sentence loop are consecutive from `index`. -/
theorem chunkSentenceLoop_indices (targetSize : Nat) :
    ∀ (rest : List Str) (current : Str) (index : Nat),
      (chunkSentenceLoop targetSize rest current index).map Chunk.index
        = List.range' index
            (chunkSentenceLoop targetSize rest current index).length := by
  intro rest
  induction rest with
  | nil =>
      intro current index
      by_cases h : current = [] <;>
        simp [chunkSentenceLoop, h, mkSentenceChunk, List.range']
  | cons s rest ih =>
      intro current index
      by_cases h : current.length + s.length > targetSize ∧ current ≠ []
      · simp [chunkSentenceLoop, h, mkSentenceChunk, ih, List.range']
      · simp [chunkSentenceLoop, h, ih]

/-- If the accumulator already exceeds `targetSize`, it is flushed as its
own chunk whatever comes next. -/
theorem chunkSentenceLoop_head_oversized (targetSize : Nat)
    (rest : List Str) (current : Str) (index : Nat)
    (h : targetSize < current.length) :
    mkSentenceChunk current index ∈
      chunkSentenceLoop targetSize rest current index := by
  have hne : current ≠ [] := by
    intro he
    rw [he] at h
    simp at h
  cases rest with
  | nil => simp [chunkSentenceLoop, hne]
  | cons t rest =>
      have : current.length + t.length > targetSize ∧ current ≠ [] :=
        ⟨by omega, hne⟩
      simp [chunkSentenceLoop, this]

/-- A sentence longer than `targetSize` is emitted as its own chunk:
no other sentence is merged with it. -/
theorem chunkSentenceLoop_oversized (targetSize : Nat) :
    ∀ (rest : List Str) (current : Str) (index : Nat) (s : Str),
      s ∈ rest → targetSize < s.length →
      ∃ i, mkSentenceChunk s i ∈
        chunkSentenceLoop targetSize rest current index := by
  intro rest
  induction rest with
  | nil => intro current index s hs; simp at hs
  | cons t rest ih =>
      intro current index s hs hlen
      rcases List.mem_cons.mp hs with rfl | hmem
      · by_cases h : current.length + s.length > targetSize ∧ current ≠ []
        · refine ⟨index + 1, ?_⟩
          simp only [chunkSentenceLoop, if_pos h]
          exact List.mem_cons_of_mem _
            (chunkSentenceLoop_head_oversized targetSize rest s (index + 1)
              hlen)
        · refine ⟨index, ?_⟩
          simp only [chunkSentenceLoop, if_neg h]
          have hcur : current = [] := by
            by_contra hne
            exact h ⟨by omega, hne⟩
          rw [hcur]
          simpa using
            chunkSentenceLoop_head_oversized targetSize rest s index hlen
      · by_cases h : current.length + t.length > targetSize ∧ current ≠ []
        · obtain ⟨i, hi⟩ := ih t (index + 1) s hmem hlen
          refine ⟨i, ?_⟩
          simp only [chunkSentenceLoop, if_pos h]
          exact List.mem_cons_of_mem _ hi
        · obtain ⟨i, hi⟩ := ih (current ++ t) index s hmem hlen
          exact ⟨i, by simpa [chunkSentenceLoop, if_neg h] using hi⟩
/-! ## Paragraph loop lemmas -/

theorem strBytes_nil : strBytes [] = 0 := rfl

theorem strBytes_cons (c : Char) (s : Str) :
    strBytes (c :: s) = c.utf8Size + strBytes s := by simp [strBytes]

theorem utf8Size_nl : ('\n').utf8Size = 1 := by decide

/-- Every chunk the paragraph loop emits is built by `mkParagraphChunk`. -/
theorem chunkParagraphLoop_shape (targetSize : Nat) :
    ∀ (rest : List Str) (current : Str) (index : Nat),
      ∀ c ∈ chunkParagraphLoop targetSize rest current index,
        ∃ raw i, c = mkParagraphChunk raw i := by
  intro rest
  induction rest with
  | nil =>
      intro current index c hc
      simp only [chunkParagraphLoop] at hc
      split at hc
      · simp at hc
      · simp at hc
        exact ⟨current, index, hc⟩
  | cons p rest ih =>
      intro current index c hc
      simp only [chunkParagraphLoop] at hc
      split at hc
      · rcases List.mem_cons.mp hc with h | h
        · exact ⟨current, index, h⟩
        · exact ih _ _ c h
      · exact ih _ _ c hc

theorem sepBytes_cons (p : Str) (rest : List Str) :
    sepBytes (p :: rest) =
      strBytes p + (if rest = [] then 0 else 2) + sepBytes rest := by
  cases rest <;> simp [sepBytes]

theorem splitOnNlNl_ne_nil (s : Str) : splitOnNlNl s ≠ [] := by
  induction s using splitOnNlNl.induct with
  | case1 => simp [splitOnNlNl]
  | case2 cs _ => simp [splitOnNlNl]
  | case3 c cs h1 h2 _ =>
      rw [splitOnNlNl]
      split
      · simp
      · simp
      · exact h1
  | case4 c cs h1 p ps h2 _ =>
      rw [splitOnNlNl]
      split
      · simp
      · simp
      · exact h1

theorem sepBytes_splitOnNlNl (text : Str) :
    sepBytes (splitOnNlNl text) = strBytes text := by
  induction text using splitOnNlNl.induct with
  | case1 => rfl
  | case2 cs ih =>
      rw [splitOnNlNl]
      cases h : splitOnNlNl cs with
      | nil => exact absurd h (splitOnNlNl_ne_nil cs)
      | cons p ps =>
          rw [h] at ih
          rw [sepBytes_cons] at ih
          rw [sepBytes_cons, sepBytes_cons]
          rw [strBytes_nil, strBytes_cons, strBytes_cons, utf8Size_nl]
          simp only [List.cons_ne_self, if_neg (List.cons_ne_nil p ps)]
          omega
  | case3 c cs h1 h2 ih => exact absurd h2 (splitOnNlNl_ne_nil cs)
  | case4 c cs h1 p ps h2 ih =>
      rw [splitOnNlNl]
      split
      · rename_i heq
        exact absurd heq (splitOnNlNl_ne_nil cs)
      · rename_i q qs heq
        rw [heq, sepBytes_cons] at ih
        rw [sepBytes_cons, strBytes_cons, strBytes_cons]
        omega
      · exact h1

theorem contentBytes_nil : contentBytes [] = 0 := rfl

theorem contentBytes_cons (c : Chunk) (cs : List Chunk) :
    contentBytes (c :: cs) = strBytes c.content + contentBytes cs := by
  simp [contentBytes]

theorem contentBytes_append (a b : List Chunk) :
    contentBytes (a ++ b) = contentBytes a + contentBytes b := by
  simp [contentBytes]

/-- Byte bound for the paragraph loop: the bound counts the open
accumulator, a pending separator when more paragraphs follow, and the
remaining rejoined paragraphs. -/
theorem chunkParagraphLoop_bytes (targetSize : Nat) :
    ∀ (rest : List Str) (current : Str) (index : Nat),
      contentBytes (chunkParagraphLoop targetSize rest current index) ≤
        (if current = [] then 0
         else strBytes current + (if rest = [] then 0 else 2)) +
        sepBytes rest := by
  intro rest
  induction rest with
  | nil =>
      intro current index
      by_cases h : current = []
      · simp [chunkParagraphLoop, h, contentBytes_nil, sepBytes]
      · simp only [chunkParagraphLoop, if_neg h, if_pos rfl, sepBytes]
        have := strBytes_trim_le current
        simp only [contentBytes_cons, contentBytes_nil, mkParagraphChunk,
          if_neg h]
        omega
  | cons p rest ih =>
      intro current index
      rw [sepBytes_cons]
      by_cases h : current.length + p.length > targetSize ∧ current ≠ []
      · rw [chunkParagraphLoop, if_pos h]
        rw [contentBytes_cons]
        have hih := ih p (index + 1)
        have htr := strBytes_trim_le current
        have hle : contentBytes (chunkParagraphLoop targetSize rest p
            (index + 1)) ≤ strBytes p + (if rest = [] then 0 else 2) +
            sepBytes rest := by
          rcases eq_or_ne p [] with hp | hp
          · rw [hp, if_pos rfl] at hih
            rw [hp]
            simp only [strBytes_nil]
            omega
          · rw [if_neg hp] at hih
            omega
        rw [if_neg h.2]
        simp only [mkParagraphChunk]
        omega
      · rw [chunkParagraphLoop, if_neg h]
        rcases eq_or_ne current [] with hc | hc
        · rw [hc, if_pos rfl, if_pos rfl]
          have hih := ih p index
          rcases eq_or_ne p [] with hp | hp
          · rw [hp, if_pos rfl] at hih
            simp only [hp, strBytes_nil]
            omega
          · rw [if_neg hp] at hih
            omega
        · rw [if_neg hc, if_neg hc, if_neg (List.cons_ne_nil p rest)]
          have hne2 : current ++ ('\n' :: '\n' :: p) ≠ [] := by simp
          have hih := ih (current ++ ('\n' :: '\n' :: p)) index
          rw [if_neg hne2] at hih
          have hb : strBytes (current ++ ('\n' :: '\n' :: p)) =
              strBytes current + 2 + strBytes p := by
            rw [strBytes_append, strBytes_cons, strBytes_cons, utf8Size_nl]
            omega
          rw [hb] at hih
          omega

/-! ## Code loop lemmas -/

/-- Every chunk the code loop emits is built by `mkCodeChunk`. -/
theorem chunkCodeLoop_shape (targetSize : Nat) :
    ∀ (rest : List Str) (current : Str) (startLine curLine index : Nat),
      ∀ c ∈ chunkCodeLoop targetSize rest current startLine curLine index,
        ∃ raw a b i, c = mkCodeChunk raw a b i := by
  intro rest
  induction rest with
  | nil =>
      intro current startLine curLine index c hc
      simp only [chunkCodeLoop] at hc
      split at hc
      · simp at hc
      · simp at hc
        exact ⟨current, startLine, curLine, index, hc⟩
  | cons line rest ih =>
      intro current startLine curLine index c hc
      simp only [chunkCodeLoop] at hc
      split at hc
      · rcases List.mem_cons.mp hc with h | h
        · exact ⟨current, startLine, curLine, index, h⟩
        · exact ih _ _ _ _ c h
      · exact ih _ _ _ _ c hc

/-! ## FixedWindow loop lemmas -/

theorem chunkFixedLoop_eq (tc : Str) (size overlap start index : Nat) :
    chunkFixedLoop tc size overlap start index =
      if tc.length ≤ min (start + size) tc.length then
        [fixedChunkAt tc size overlap start index]
      else if tc.length ≤ min (start + fixedStep size overlap) tc.length then
        [fixedChunkAt tc size overlap start index]
      else
        fixedChunkAt tc size overlap start index ::
          chunkFixedLoop tc size overlap
            (min (start + fixedStep size overlap) tc.length) (index + 1) := by
  rw [chunkFixedLoop]
  dsimp only
  simp only [fixedChunkAt, fixedStep]
  split_ifs <;> rfl

theorem chunkFixedLoop_index_map (tc : Str) (size overlap : Nat) :
    ∀ start index,
      (chunkFixedLoop tc size overlap start index).map Chunk.index =
        List.range' index (chunkFixedLoop tc size overlap start index).length := by
  intro start index
  induction start, index using chunkFixedLoop.induct tc size overlap with
  | case1 start index total e h =>
      rw [chunkFixedLoop_eq, if_pos h]
      simp [List.range', fixedChunkAt]
  | case2 start index total e h step start' h2 =>
      have h2' : tc.length ≤ min (start + fixedStep size overlap) tc.length :=
        h2
      rw [chunkFixedLoop_eq, if_neg h, if_pos h2']
      simp [List.range', fixedChunkAt]
  | case3 start index total e h step start' h2 ih =>
      have h2' : ¬ tc.length ≤ min (start + fixedStep size overlap)
          tc.length := h2
      rw [chunkFixedLoop_eq, if_neg h, if_neg h2']
      simp only [List.map_cons, List.length_cons]
      rw [List.range'_succ]
      refine congrArg (List.cons index) ?_
      exact ih

theorem chunkFixedLoop_head (tc : Str) (size overlap start index : Nat) :
    ∃ rest, chunkFixedLoop tc size overlap start index =
      fixedChunkAt tc size overlap start index :: rest := by
  rw [chunkFixedLoop_eq]
  split_ifs <;> exact ⟨_, rfl⟩

theorem chunkFixedLoop_start_step (tc : Str) (size overlap : Nat) :
    ∀ start index i c c',
      (chunkFixedLoop tc size overlap start index)[i]? = some c →
      (chunkFixedLoop tc size overlap start index)[i + 1]? = some c' →
      c'.start = c.start + fixedStep size overlap := by
  intro start index
  induction start, index using chunkFixedLoop.induct tc size overlap with
  | case1 start index total e h =>
      intro i c c' hc hc'
      rw [chunkFixedLoop_eq, if_pos h] at hc'
      simp at hc'
  | case2 start index total e h step start' h2 =>
      have h2' : tc.length ≤ min (start + fixedStep size overlap) tc.length :=
        h2
      intro i c c' hc hc'
      rw [chunkFixedLoop_eq, if_neg h, if_pos h2'] at hc'
      simp at hc'
  | case3 start index total e h step start' h2 ih =>
      have h2' : ¬ tc.length ≤ min (start + fixedStep size overlap)
          tc.length := h2
      intro i c c' hc hc'
      rw [chunkFixedLoop_eq, if_neg h, if_neg h2'] at hc hc'
      cases i with
      | zero =>
          rw [List.getElem?_cons_zero] at hc
          rw [List.getElem?_cons_succ] at hc'
          obtain ⟨rest, hrest⟩ := chunkFixedLoop_head tc size overlap
            (min (start + fixedStep size overlap) tc.length) (index + 1)
          rw [hrest, List.getElem?_cons_zero] at hc'
          injection hc with hc
          injection hc' with hc'
          subst hc hc'
          simp only [fixedChunkAt]
          omega
      | succ j =>
          rw [List.getElem?_cons_succ] at hc hc'
          exact ih j c c' hc hc'

theorem chunkFixedLoop_size_le (tc : Str) (size overlap : Nat) :
    ∀ start index, ∀ c ∈ chunkFixedLoop tc size overlap start index,
      c.size ≤ size := by
  intro start index
  induction start, index using chunkFixedLoop.induct tc size overlap with
  | case1 start index total e h =>
      intro c hc
      rw [chunkFixedLoop_eq, if_pos h] at hc
      simp at hc
      subst hc
      simp only [fixedChunkAt]
      omega
  | case2 start index total e h step start' h2 =>
      have h2' : tc.length ≤ min (start + fixedStep size overlap) tc.length :=
        h2
      intro c hc
      rw [chunkFixedLoop_eq, if_neg h, if_pos h2'] at hc
      simp at hc
      subst hc
      simp only [fixedChunkAt]
      omega
  | case3 start index total e h step start' h2 ih =>
      have h2' : ¬ tc.length ≤ min (start + fixedStep size overlap)
          tc.length := h2
      intro c hc
      rw [chunkFixedLoop_eq, if_neg h, if_neg h2'] at hc
      rcases List.mem_cons.mp hc with rfl | hmem
      · simp only [fixedChunkAt]
        omega
      · exact ih c hmem

theorem chunkFixedLoop_size_full (tc : Str) (size overlap : Nat) :
    ∀ start index i c,
      (chunkFixedLoop tc size overlap start index)[i]? = some c →
      i + 1 < (chunkFixedLoop tc size overlap start index).length →
      c.size = size := by
  intro start index
  induction start, index using chunkFixedLoop.induct tc size overlap with
  | case1 start index total e h =>
      intro i c hc hlen
      rw [chunkFixedLoop_eq, if_pos h] at hlen
      simp at hlen
  | case2 start index total e h step start' h2 =>
      have h2' : tc.length ≤ min (start + fixedStep size overlap) tc.length :=
        h2
      intro i c hc hlen
      rw [chunkFixedLoop_eq, if_neg h, if_pos h2'] at hlen
      simp at hlen
  | case3 start index total e h step start' h2 ih =>
      have h2' : ¬ tc.length ≤ min (start + fixedStep size overlap)
          tc.length := h2
      intro i c hc hlen
      rw [chunkFixedLoop_eq, if_neg h, if_neg h2'] at hc hlen
      cases i with
      | zero =>
          rw [List.getElem?_cons_zero] at hc
          injection hc with hc
          subst hc
          simp only [fixedChunkAt]
          have h' : ¬ tc.length ≤ min (start + size) tc.length := h
          omega
      | succ j =>
          rw [List.getElem?_cons_succ] at hc
          rw [List.length_cons] at hlen
          have hB : (chunkFixedLoop tc size overlap start'
              (index + 1)).length = (chunkFixedLoop tc size overlap
              (min (start + fixedStep size overlap) tc.length)
              (index + 1)).length := rfl
          exact ih j c hc (by omega)

theorem chunkFixedLoop_overlap (tc : Str) (size overlap : Nat) :
    ∀ start index i c,
      (chunkFixedLoop tc size overlap start index)[i]? = some c →
      c.overlap = if index + i = 0 then 0 else min overlap c.size := by
  intro start index
  induction start, index using chunkFixedLoop.induct tc size overlap with
  | case1 start index total e h =>
      intro i c hc
      rw [chunkFixedLoop_eq, if_pos h] at hc
      cases i with
      | zero =>
          rw [List.getElem?_cons_zero] at hc
          injection hc with hc
          subst hc
          simp only [fixedChunkAt]
          rcases Nat.eq_zero_or_pos index with hi | hi
          · simp [hi]
          · rw [if_pos hi, if_neg (by omega : ¬ index + 0 = 0)]
      | succ j => simp at hc
  | case2 start index total e h step start' h2 =>
      have h2' : tc.length ≤ min (start + fixedStep size overlap) tc.length :=
        h2
      intro i c hc
      rw [chunkFixedLoop_eq, if_neg h, if_pos h2'] at hc
      cases i with
      | zero =>
          rw [List.getElem?_cons_zero] at hc
          injection hc with hc
          subst hc
          simp only [fixedChunkAt]
          rcases Nat.eq_zero_or_pos index with hi | hi
          · simp [hi]
          · rw [if_pos hi, if_neg (by omega : ¬ index + 0 = 0)]
      | succ j => simp at hc
  | case3 start index total e h step start' h2 ih =>
      have h2' : ¬ tc.length ≤ min (start + fixedStep size overlap)
          tc.length := h2
      intro i c hc
      rw [chunkFixedLoop_eq, if_neg h, if_neg h2'] at hc
      cases i with
      | zero =>
          rw [List.getElem?_cons_zero] at hc
          injection hc with hc
          subst hc
          simp only [fixedChunkAt]
          rcases Nat.eq_zero_or_pos index with hi | hi
          · simp [hi]
          · rw [if_pos hi, if_neg (by omega : ¬ index + 0 = 0)]
      | succ j =>
          rw [List.getElem?_cons_succ] at hc
          have := ih j c hc
          rw [this]
          have : index + 1 + j ≠ 0 := by omega
          have h3 : index + (j + 1) ≠ 0 := by omega
          simp [this, h3]

theorem chunkFixedLoop_flatten (tc : Str) (size : Nat) (hsize : 1 ≤ size) :
    ∀ start index, start < tc.length →
      ((chunkFixedLoop tc size 0 start index).map Chunk.content).flatten =
        tc.drop start := by
  have hstep : fixedStep size 0 = size := by
    simp only [fixedStep]
    rw [if_pos (by omega : 0 < size)]
    omega
  intro start index
  induction start, index using chunkFixedLoop.induct tc size 0 with
  | case1 start index total e h =>
      intro hlt
      rw [chunkFixedLoop_eq, if_pos h]
      have h' : tc.length ≤ min (start + size) tc.length := h
      simp only [fixedChunkAt, List.map_cons, List.map_nil,
        List.flatten_cons, List.flatten_nil, List.append_nil]
      have he : min (start + size) tc.length = tc.length := by omega
      rw [he]
      exact List.take_of_length_le (by simp)
  | case2 start index total e h step start' h2 =>
      intro hlt
      have h' : ¬ tc.length ≤ min (start + size) tc.length := h
      have h2' : tc.length ≤ min (start + fixedStep size 0) tc.length := h2
      rw [hstep] at h2'
      omega
  | case3 start index total e h step start' h2 ih =>
      intro hlt
      have h' : ¬ tc.length ≤ min (start + size) tc.length := h
      have h2' : ¬ tc.length ≤ min (start + fixedStep size 0) tc.length := h2
      rw [chunkFixedLoop_eq, if_neg h, if_neg h2']
      simp only [List.map_cons, List.flatten_cons]
      have hlt2 : min (start + fixedStep size 0) tc.length < tc.length := by
        omega
      have ihB : (List.map Chunk.content (chunkFixedLoop tc size 0
          (min (start + fixedStep size 0) tc.length) (index + 1))).flatten =
          List.drop (min (start + fixedStep size 0) tc.length) tc :=
        ih hlt2
      rw [ihB]
      have hmin : min (start + fixedStep size 0) tc.length = start + size := by
        rw [hstep]; omega
      have hmine : min (start + size) tc.length = start + size := by omega
      rw [hmin]
      simp only [fixedChunkAt, hmine]
      rw [show start + size - start = size from by omega]
      rw [← List.drop_drop]
      exact List.take_append_drop size (tc.drop start)

/-! ## Semantic loop lemmas -/

theorem utf8Size_space : (' ').utf8Size = 1 := by decide

theorem joinSpace_cons_cons (s r : Str) (rs : List Str) :
    joinSpace (s :: r :: rs) = s ++ ' ' :: joinSpace (r :: rs) := rfl

theorem strBytes_joinSpace :
    ∀ g : List Str, g ≠ [] →
      strBytes (joinSpace g) + 1 = (g.map strBytes).sum + g.length := by
  intro g
  induction g with
  | nil => simp
  | cons s rest ih =>
      intro _
      cases rest with
      | nil => simp [joinSpace]
      | cons r rs =>
          rw [joinSpace_cons_cons]
          rw [strBytes_append, strBytes_cons, utf8Size_space]
          have := ih (List.cons_ne_nil r rs)
          simp only [List.map_cons, List.sum_cons, List.length_cons] at *
          omega

/-- Every chunk the semantic loop emits has strategy `"semantic"`. -/
theorem semGroupLoop_strategy (sentences : List Str)
    (embeddings : List (List ℚ)) (cos : List ℚ → List ℚ → ℚ)
    (threshold : ℚ) :
    ∀ n i group curStart chunks,
      (∀ c ∈ chunks, c.strategy = "semantic") →
      ∀ c ∈ semGroupLoop sentences embeddings cos threshold n i group
        curStart chunks, c.strategy = "semantic" := by
  intro n
  induction n with
  | zero =>
      intro i group curStart chunks hinv c hc
      rw [semGroupLoop] at hc
      split at hc
      · exact hinv c hc
      · rcases List.mem_append.mp hc with h | h
        · exact hinv c h
        · simp at h
          subst h
          rfl
  | succ n ih =>
      intro i group curStart chunks hinv c hc
      rw [semGroupLoop] at hc
      split at hc
      · refine ih _ _ _ _ ?_ c hc
        intro c' hc'
        rcases List.mem_append.mp hc' with h | h
        · exact hinv c' h
        · simp at h
          subst h
          rfl
      · exact ih _ _ _ _ hinv c hc

/-- Chunk indices of the semantic loop are consecutive from 0. -/
theorem semGroupLoop_indices (sentences : List Str)
    (embeddings : List (List ℚ)) (cos : List ℚ → List ℚ → ℚ)
    (threshold : ℚ) :
    ∀ n i group curStart chunks,
      chunks.map Chunk.index = List.range chunks.length →
      (semGroupLoop sentences embeddings cos threshold n i group curStart
        chunks).map Chunk.index =
        List.range (semGroupLoop sentences embeddings cos threshold n i
          group curStart chunks).length := by
  intro n
  induction n with
  | zero =>
      intro i group curStart chunks hinv
      rw [semGroupLoop]
      split
      · exact hinv
      · simp only [List.map_append, List.length_append, hinv]
        simp [List.range_succ]
  | succ n ih =>
      intro i group curStart chunks hinv
      rw [semGroupLoop]
      split
      · refine ih _ _ _ _ ?_
        simp only [List.map_append, List.length_append, hinv]
        simp [List.range_succ]
      · exact ih _ _ _ _ hinv

/-- Separator accounting for the semantic loop: summed content bytes
plus one per chunk equal the processed sentence bytes plus one per
sentence. -/
theorem semGroupLoop_bytes (sentences : List Str)
    (embeddings : List (List ℚ)) (cos : List ℚ → List ℚ → ℚ)
    (threshold : ℚ) :
    ∀ n i group curStart chunks, group ≠ [] →
      contentBytes (semGroupLoop sentences embeddings cos threshold n i
          group curStart chunks) +
        (semGroupLoop sentences embeddings cos threshold n i group
          curStart chunks).length =
      contentBytes chunks + chunks.length +
        groupBytes sentences group + group.length +
        restBytes sentences n i + n := by
  intro n
  induction n with
  | zero =>
      intro i group curStart chunks hg
      rw [semGroupLoop]
      rw [if_neg hg]
      rw [contentBytes_append, List.length_append]
      have hj := strBytes_joinSpace (group.map fun idx =>
        sentences.getD idx []) (by simpa using hg)
      simp only [contentBytes_cons, contentBytes_nil, List.length_cons,
        List.length_nil, List.map_map] at *
      simp only [groupBytes, restBytes, List.map_map]
      simp at hj ⊢
      omega
  | succ n ih =>
      intro i group curStart chunks hg
      rw [semGroupLoop]
      dsimp only
      split
      · rw [ih (i + 1) [i] _ _ (List.cons_ne_nil i [])]
        rw [contentBytes_append, List.length_append]
        have hj := strBytes_joinSpace (group.map fun idx =>
          sentences.getD idx []) (by simpa using hg)
        simp only [contentBytes_cons, contentBytes_nil, List.length_cons,
          List.length_nil] at *
        simp only [groupBytes, restBytes]
        simp at hj ⊢
        omega
      · rw [ih (i + 1) (group ++ [i]) _ _ (by simp)]
        simp only [groupBytes, restBytes, List.map_append,
          List.sum_append, List.length_append]
        simp
        omega

/-- When every embedding request fails, every chunk embedding the loop
emits is either absent or the hardcoded 768-dimensional zero vector. -/
theorem semGroupLoop_embedding_zero (sentences : List Str)
    (cos : List ℚ → List ℚ → ℚ) (threshold : ℚ) :
    ∀ n i group curStart chunks,
      i + n = sentences.length → 1 ≤ i →
      (∀ c ∈ chunks, c.embedding = none ∨
        c.embedding = some (List.replicate 768 0)) →
      ∀ c ∈ semGroupLoop sentences
          (sentences.map fun _ => List.replicate 768 (0 : ℚ)) cos threshold
          n i group curStart chunks,
        c.embedding = none ∨ c.embedding = some (List.replicate 768 0) := by
  intro n
  induction n with
  | zero =>
      intro i group curStart chunks _ _ hinv c hc
      rw [semGroupLoop] at hc
      split at hc
      · exact hinv c hc
      · rcases List.mem_append.mp hc with h | h
        · exact hinv c h
        · simp only [List.mem_singleton] at h
          subst h
          show (group.getLast?.bind fun idx => (sentences.map fun _ =>
            List.replicate 768 (0 : ℚ)).get? idx) = none ∨ _
          cases hlast : group.getLast? with
          | none => left; rw [Option.bind]
          | some idx =>
              rw [Option.bind]
              cases hget : (sentences.map fun _ =>
                  List.replicate 768 (0 : ℚ)).get? idx with
              | none => left; rfl
              | some v =>
                  right
                  have hv : v ∈ sentences.map fun _ =>
                      List.replicate 768 (0 : ℚ) :=
                    List.get?_mem hget
                  obtain ⟨s, _, hs⟩ := List.mem_map.mp hv
                  rw [← hs]
  | succ n ih =>
      intro i group curStart chunks hn hi hinv c hc
      rw [semGroupLoop] at hc
      dsimp only at hc
      split at hc
      · refine ih (i + 1) [i] _ _ (by omega) (by omega) ?_ c hc
        intro c' hc'
        rcases List.mem_append.mp hc' with h | h
        · exact hinv c' h
        · simp only [List.mem_singleton] at h
          subst h
          right
          simp only []
          congr 1
          have hlt : i - 1 < (sentences.map fun _ =>
              List.replicate 768 (0 : ℚ)).length := by
            simp
            omega
          rw [List.getD_eq_getElem _ _ hlt]
          simp
      · exact ih (i + 1) (group ++ [i]) _ _ (by omega) (by omega) hinv c hc

theorem chunkSemantic_indices (uSent : Str → List Str)
    (embed : Str → Option (List ℚ)) (cos : List ℚ → List ℚ → ℚ)
    (threshold : ℚ) (text : Str) :
    (chunkSemantic uSent embed cos threshold text).map Chunk.index =
      List.range (chunkSemantic uSent embed cos threshold text).length := by
  rw [chunkSemantic]
  split
  · rfl
  · exact semGroupLoop_indices _ _ _ _ _ _ _ _ _ rfl

theorem chunkSemantic_strategy (uSent : Str → List Str)
    (embed : Str → Option (List ℚ)) (cos : List ℚ → List ℚ → ℚ)
    (threshold : ℚ) (text : Str) :
    ∀ c ∈ chunkSemantic uSent embed cos threshold text,
      c.strategy = "semantic" := by
  rw [chunkSemantic]
  split
  · intro c hc
    simp at hc
  · exact semGroupLoop_strategy _ _ _ _ _ _ _ _ _
      (by intro c hc; simp at hc)

/-- The fold of `chunk_smart` gives every `"smart"`-labelled chunk the
index of its output position. -/
theorem smartFold_inv (uSent : Str → List Str) (size : Nat) :
    ∀ (l : List Chunk) (acc : List Chunk),
      (∀ c ∈ l, c.strategy = "semantic") →
      (∀ (i : Nat) (c : Chunk), acc[i]? = some c →
        c.strategy = "smart" → c.index = i) →
      ∀ (i : Nat) (c : Chunk),
        (l.foldl (smartStep uSent size) acc)[i]? = some c →
        c.strategy = "smart" → c.index = i := by
  intro l
  induction l with
  | nil => intro acc _ hacc; exact hacc
  | cons chunk l ih =>
      intro acc hsem hacc
      rw [List.foldl_cons]
      refine ih _ (fun c hc => hsem c (List.mem_cons_of_mem _ hc)) ?_
      intro i c hc hsmart
      by_cases hsz : chunk.size ≤ size * 2
      · have heq : smartStep uSent size acc chunk = acc ++ [chunk] := by
          rw [smartStep, if_pos hsz]
        rw [heq] at hc
        rcases Nat.lt_or_ge i acc.length with hi | hi
        · rw [List.getElem?_append_left hi] at hc
          exact hacc i c hc hsmart
        · rw [List.getElem?_append_right hi] at hc
          cases hd : i - acc.length with
          | zero =>
              rw [hd] at hc
              simp at hc
              subst hc
              rw [hsem chunk (List.mem_cons_self chunk l)] at hsmart
              exact absurd hsmart (by decide)
          | succ j =>
              rw [hd] at hc
              simp at hc
      · have heq : smartStep uSent size acc chunk = acc ++
            (chunkSentence (uSent chunk.content) size).enum.map
              (fun p =>
                { p.2 with strategy := "smart", index := acc.length + p.1 }) := by
          rw [smartStep, if_neg hsz]
        rw [heq] at hc
        rcases Nat.lt_or_ge i acc.length with hi | hi
        · rw [List.getElem?_append_left hi] at hc
          exact hacc i c hc hsmart
        · rw [List.getElem?_append_right hi, List.getElem?_map,
            List.getElem?_enum] at hc
          cases he : (chunkSentence (uSent chunk.content)
              size)[i - acc.length]? with
          | none => rw [he] at hc; simp at hc
          | some sub =>
              rw [he] at hc
              simp only [Option.map_some] at hc
              injection hc with hc
              subst hc
              simp only []
              omega

/-! ## Dialogue lemmas -/

/-- With no speaker match on any line, the dialogue loop never flushes:
everything accumulates into one final chunk. -/
theorem chunkDialogueLoop_noSpeaker (detect : Str → Option Str)
    (total : Nat) :
    ∀ (lines : List Str) (lineIdx charPos csl csp : Nat) (spk : Option Str)
      (cur : List Str) (chunks : List Chunk),
      (∀ l ∈ lines, detect l = none) →
      chunkDialogueLoop detect total lines lineIdx charPos csl csp spk cur
          chunks =
        if cur = [] ∧ lines = [] then chunks
        else chunks ++
          [mkDialogueChunk (cur ++ lines) csp csl total spk chunks.length] := by
  intro lines
  induction lines with
  | nil =>
      intro lineIdx charPos csl csp spk cur chunks _
      rw [chunkDialogueLoop]
      by_cases h : cur = [] <;> simp [h]
  | cons line rest ih =>
      intro lineIdx charPos csl csp spk cur chunks hdet
      rw [chunkDialogueLoop]
      have hline : detect line = none := hdet line (List.mem_cons_self _ _)
      rw [hline]
      dsimp only [Option.map]
      rw [ih _ _ _ _ _ _ _
        (fun l hl => hdet l (List.mem_cons_of_mem _ hl))]
      have hne : ¬ (cur ++ [line] = [] ∧ rest = []) := by simp
      rw [if_neg hne, if_neg (by simp)]
      simp

theorem splitOnChar_ne_nil (sep : Char) (s : Str) :
    splitOnChar sep s ≠ [] := by
  induction s with
  | nil => simp [splitOnChar]
  | cons c cs ih =>
      rw [splitOnChar]
      split
      · simp
      · split <;> simp

theorem rustLines_ne_nil (s : Str) (h : s ≠ []) : rustLines s ≠ [] := by
  rw [rustLines, if_neg h]
  have h1 := splitOnChar_ne_nil '\n' s
  dsimp only
  split
  · rename_i hlast
    -- the last part is empty, so there are at least two parts or the
    -- single part is empty; a single empty part only arises for s = []
    cases hp : splitOnChar '\n' s with
    | nil => exact absurd hp h1
    | cons p ps =>
        cases ps with
        | nil =>
            -- single part equal to []: impossible for s ≠ []
            exfalso
            rw [hp] at hlast
            simp at hlast
            subst hlast
            cases s with
            | nil => exact h rfl
            | cons c cs =>
                rw [splitOnChar] at hp
                split at hp
                · simp at hp
                  exact splitOnChar_ne_nil _ _ hp
                · split at hp <;> simp at hp
        | cons q qs =>
            simp
  · rename_i hlast
    cases hp : splitOnChar '\n' s with
    | nil => exact absurd hp h1
    | cons p ps => simp

/-! ## Tokenizer lemmas -/

theorem splitWsAux_flatten :
    ∀ (s : Str) (cur : Str),
      (splitWsAux s cur).flatten =
        cur ++ s.filter (fun c => ! rustIsWhitespace c) := by
  intro s
  induction s with
  | nil =>
      intro cur
      by_cases h : cur = [] <;> simp [splitWsAux, h]
  | cons c cs ih =>
      intro cur
      by_cases hw : rustIsWhitespace c
      · rw [splitWsAux, if_pos hw, List.filter_cons_of_neg (by simp [hw])]
        by_cases hc : cur = []
        · rw [if_pos hc, ih, hc]
        · rw [if_neg hc]
          simp [ih]
      · rw [splitWsAux, if_neg hw, ih,
          List.filter_cons_of_pos (by simp [hw])]
        simp

theorem sum_filter_flatten (p : Char → Bool) :
    ∀ (ws : List Str),
      (ws.map (fun w => (w.filter p).length)).sum =
        ((ws.flatten).filter p).length := by
  intro ws
  induction ws with
  | nil => simp
  | cons w ws ih => simp [List.filter_append, ih]

theorem punct_not_ws (c : Char) (h : isAsciiPunct c = true) :
    rustIsWhitespace c = false := by
  simp [isAsciiPunct] at h
  simp [rustIsWhitespace]
  omega

theorem filter_punct_not_ws :
    ∀ s : Str,
      (s.filter (fun c => ! rustIsWhitespace c)).filter isAsciiPunct =
        s.filter isAsciiPunct := by
  intro s
  induction s with
  | nil => simp
  | cons c cs ih =>
      by_cases hp : isAsciiPunct c
      · have hw := punct_not_ws c hp
        simp [List.filter_cons, hw, hp, ih]
      · by_cases hw : rustIsWhitespace c <;>
          simp [List.filter_cons, hw, hp, ih]

theorem sum_one_add (f : Str → Nat) :
    ∀ (ws : List Str),
      (ws.map (fun w => 1 + f w)).sum = ws.length + (ws.map f).sum := by
  intro ws
  induction ws with
  | nil => simp
  | cons w ws ih => simp [ih]; omega

/-- The `"word"` tokenizer cost equals the word count plus the number of
ASCII punctuation characters. -/
theorem countTokens_word (s : Str) :
    countTokens "word" s =
      (splitWs s).length + (s.filter isAsciiPunct).length := by
  rw [countTokens, if_pos rfl, sum_one_add]
  congr 1
  rw [sum_filter_flatten, splitWs, splitWsAux_flatten, List.nil_append,
    filter_punct_not_ws]

theorem splitWsAux_length_congr :
    ∀ (cs : Str) (cur cur' : Str), cur ≠ [] → cur' ≠ [] →
      (splitWsAux cs cur).length = (splitWsAux cs cur').length := by
  intro cs
  induction cs with
  | nil => intro cur cur' h h'; simp [splitWsAux, h, h']
  | cons c cs ih =>
      intro cur cur' h h'
      by_cases hw : rustIsWhitespace c
      · rw [splitWsAux, splitWsAux, if_pos hw, if_pos hw, if_neg h,
          if_neg h']
        simp
      · rw [splitWsAux, splitWsAux, if_neg hw, if_neg hw]
        exact ih (cur ++ [c]) (cur' ++ [c]) (by simp) (by simp)

theorem splitWsAux_length_le :
    ∀ (cs : Str) (cur : Str), cur ≠ [] →
      (splitWsAux cs cur).length ≤ 1 + (splitWsAux cs []).length := by
  intro cs
  induction cs with
  | nil => intro cur h; simp [splitWsAux, h]
  | cons c cs ih =>
      intro cur h
      by_cases hw : rustIsWhitespace c
      · rw [splitWsAux, if_pos hw, if_neg h, splitWsAux, if_pos hw,
          if_pos rfl]
        simp
        omega
      · rw [splitWsAux, if_neg hw, splitWsAux, if_neg hw, List.nil_append]
        rw [splitWsAux_length_congr cs (cur ++ [c]) [c] (by simp)
          (by simp)]
        omega

theorem splitWsAux_append_le :
    ∀ (a b : Str) (cur : Str),
      (splitWsAux (a ++ b) cur).length ≤
        (splitWsAux a cur).length + (splitWsAux b []).length := by
  intro a
  induction a with
  | nil =>
      intro b cur
      by_cases h : cur = []
      · simp [splitWsAux, h]
      · rw [List.nil_append, splitWsAux, if_neg h]
        have := splitWsAux_length_le b cur h
        simp
        omega
  | cons c a ih =>
      intro b cur
      by_cases hw : rustIsWhitespace c
      · by_cases hc : cur = []
        · rw [List.cons_append, splitWsAux, if_pos hw, if_pos hc,
            splitWsAux, if_pos hw, if_pos hc]
          exact ih b []
        · rw [List.cons_append, splitWsAux, if_pos hw, if_neg hc,
            splitWsAux, if_pos hw, if_neg hc]
          have := ih b []
          simp
          omega
      · rw [List.cons_append, splitWsAux, if_neg hw, splitWsAux,
          if_neg hw]
        exact ih b (cur ++ [c])

theorem splitWs_append_le (a b : Str) :
    (splitWs (a ++ b)).length ≤ (splitWs a).length + (splitWs b).length :=
  splitWsAux_append_le a b []

theorem countTokens_gpt (s : Str) :
    countTokens "gpt" s = (strBytes s + 3) / 4 := by
  rw [countTokens, if_neg (by decide), if_pos rfl]

/-- Token costs are subadditive under concatenation for the `"word"` and
`"gpt"` tokenizers. -/
theorem countTokens_append_le (tok : String)
    (htok : tok = "word" ∨ tok = "gpt") (a b : Str) :
    countTokens tok (a ++ b) ≤ countTokens tok a + countTokens tok b := by
  rcases htok with h | h <;> subst h
  · rw [countTokens_word, countTokens_word, countTokens_word,
      List.filter_append, List.length_append]
    have := splitWs_append_le a b
    omega
  · rw [countTokens_gpt, countTokens_gpt, countTokens_gpt,
      strBytes_append]
    omega

theorem countTokens_nil (tok : String) : countTokens tok [] = 0 := by
  rw [countTokens]
  split
  · simp [splitWs, splitWsAux]
  · split
    · simp [strBytes]
    · simp [splitWs, splitWsAux]

/-- Cost of joined sentences is at most the sum of the per-sentence
costs. -/
theorem countTokens_flatten_le (tok : String)
    (htok : tok = "word" ∨ tok = "gpt") :
    ∀ (group : List Str),
      countTokens tok group.flatten ≤ (group.map (countTokens tok)).sum := by
  intro group
  induction group with
  | nil => simp [countTokens_nil]
  | cons s group ih =>
      rw [List.flatten_cons]
      calc countTokens tok (s ++ group.flatten)
          ≤ countTokens tok s + countTokens tok group.flatten :=
            countTokens_append_le tok htok s group.flatten
        _ ≤ countTokens tok s + (group.map (countTokens tok)).sum := by
            omega
        _ = ((s :: group).map (countTokens tok)).sum := by simp

theorem pushSplitChunks_split_source (limit : Nat) :
    ∀ (ws : List Str) (charPos index : Nat),
      ∀ c ∈ (pushSplitChunks limit ws charPos index).1,
        ∃ k, c.source = some ("split sentence tokens: ~" ++ k) := by
  intro ws
  induction ws with
  | nil => intro charPos index c hc; simp [pushSplitChunks] at hc
  | cons w ws ih =>
      intro charPos index c hc
      rw [pushSplitChunks] at hc
      rcases hp : pushSplitChunks limit ws (charPos + strBytes w)
          (index + 1) with ⟨cs, p2, i2⟩
      rw [hp] at hc
      dsimp only at hc
      rcases List.mem_cons.mp hc with rfl | h
      · exact ⟨_, rfl⟩
      · have := ih (charPos + strBytes w) (index + 1) c
        rw [hp] at this
        exact this h

/-- Main invariant of the token-aware accumulation loop. -/
theorem chunkTokenAwareLoop_inv (tok : String) (limit : Nat)
    (htok : tok = "word" ∨ tok = "gpt") :
    ∀ (rest cur : List Str) (count index charPos startPos : Nat)
      (chunks : List Chunk),
      count = (cur.map (countTokens tok)).sum →
      count ≤ limit →
      (∀ c ∈ chunks, TokenOk tok limit c) →
      ∀ c ∈ chunkTokenAwareLoop tok limit rest cur count index charPos
          startPos chunks, TokenOk tok limit c := by
  intro rest
  induction rest with
  | nil =>
      intro cur count index charPos startPos chunks hcount hle hinv c hc
      rw [chunkTokenAwareLoop] at hc
      split at hc
      · exact hinv c hc
      · rcases List.mem_append.mp hc with h | h
        · exact hinv c h
        · simp at h
          subst h
          right
          simp only [mkTokenChunk]
          calc countTokens tok cur.flatten
              ≤ (cur.map (countTokens tok)).sum :=
                countTokens_flatten_le tok htok cur
            _ ≤ limit := hcount ▸ hle
  | cons s rest ih =>
      intro cur count index charPos startPos chunks hcount hle hinv c hc
      rw [chunkTokenAwareLoop] at hc
      dsimp only at hc
      by_cases hf1 : count + countTokens tok s > limit ∧ cur ≠ []
      · rw [if_pos hf1] at hc
        dsimp only at hc
        have hflush : TokenOk tok limit
            (mkTokenChunk cur startPos count limit index) := by
          right
          simp only [mkTokenChunk]
          calc countTokens tok cur.flatten
              ≤ (cur.map (countTokens tok)).sum :=
                countTokens_flatten_le tok htok cur
            _ ≤ limit := hcount ▸ hle
        by_cases h2 : countTokens tok s > limit
        · rw [if_pos h2, if_neg (by simp)] at hc
          rcases hp : pushSplitChunks limit (splitByWords s limit tok)
              charPos (index + 1) with ⟨wcs, cp2, i2⟩
          rw [hp] at hc
          dsimp only at hc
          refine ih [] 0 _ _ _ _ rfl (by omega) ?_ c hc
          intro c' hc'
          rcases List.mem_append.mp hc' with h | h
          · rcases List.mem_append.mp h with h | h
            · exact hinv c' h
            · simp at h
              subst h
              exact hflush
          · left
            have := pushSplitChunks_split_source limit
              (splitByWords s limit tok) charPos (index + 1) c'
            rw [hp] at this
            exact this h
        · rw [if_neg h2] at hc
          refine ih _ _ _ _ _ _ (by simp) (by omega) ?_ c hc
          intro c' hc'
          rcases List.mem_append.mp hc' with h | h
          · exact hinv c' h
          · simp at h
            subst h
            exact hflush
      · rw [if_neg hf1] at hc
        dsimp only at hc
        by_cases h2 : countTokens tok s > limit
        · rw [if_pos h2] at hc
          by_cases hcur : cur ≠ []
          · rw [if_pos hcur] at hc
            rcases hp : pushSplitChunks limit (splitByWords s limit tok)
                charPos (index + 1) with ⟨wcs, cp2, i2⟩
            rw [hp] at hc
            dsimp only at hc
            refine ih [] 0 _ _ _ _ rfl (by omega) ?_ c hc
            intro c' hc'
            rcases List.mem_append.mp hc' with h | h
            · rcases List.mem_append.mp h with h | h
              · exact hinv c' h
              · simp at h
                subst h
                right
                simp only [mkTokenChunk]
                calc countTokens tok cur.flatten
                    ≤ (cur.map (countTokens tok)).sum :=
                      countTokens_flatten_le tok htok cur
                  _ ≤ limit := hcount ▸ hle
            · left
              have := pushSplitChunks_split_source limit
                (splitByWords s limit tok) charPos (index + 1) c'
              rw [hp] at this
              exact this h
          · rw [if_neg hcur] at hc
            rcases hp : pushSplitChunks limit (splitByWords s limit tok)
                charPos index with ⟨wcs, cp2, i2⟩
            rw [hp] at hc
            dsimp only at hc
            refine ih cur count _ _ _ _ hcount hle ?_ c hc
            intro c' hc'
            rcases List.mem_append.mp hc' with h | h
            · exact hinv c' h
            · left
              have := pushSplitChunks_split_source limit
                (splitByWords s limit tok) charPos index c'
              rw [hp] at this
              exact this h
        · rw [if_neg h2] at hc
          refine ih _ _ _ _ _ _ ?_ ?_ hinv c hc
          · rw [hcount]
            simp
          · rcases not_and_or.mp hf1 with h | h
            · omega
            · rw [not_ne_iff] at h
              subst h
              simp at hcount
              omega

/-! ## Recursive split lemmas -/

/-- Size bounds of `recursive_split`: the chunk list only grows, ends
nonempty, every appended chunk fits `maxSize`, and every chunk at a
position `≥ 1` respects `minSize` (only position 0 may be undersized,
via the `chunks.is_empty()` escape). -/
theorem recursiveSplit_inv (uSent : Str → List Str)
    (maxSize minSize : Nat) :
    ∀ (fuel : Nat) (text : Str) (offset : Nat) (chunks : List Chunk)
      (index : Nat) (out : List Chunk × Nat),
      recursiveSplit uSent fuel text offset maxSize minSize chunks index =
        .ok out →
      (∀ c ∈ chunks, c.size ≤ maxSize) →
      (∀ (i : Nat) (c : Chunk), chunks[i]? = some c → 1 ≤ i →
        minSize ≤ c.size) →
      chunks.length ≤ out.1.length ∧ 1 ≤ out.1.length ∧
      (∀ c ∈ out.1, c.size ≤ maxSize) ∧
      (∀ (i : Nat) (c : Chunk), out.1[i]? = some c → 1 ≤ i →
        minSize ≤ c.size) := by
  intro fuel
  induction fuel with
  | zero =>
      intro text offset chunks index out hok _ _
      rw [recursiveSplit] at hok
      exact Except.noConfusion hok
  | succ fuel ih =>
      have hbind : ∀ (A B : Str) (off1 off2 : Nat) (chunks : List Chunk)
          (index : Nat) (out : List Chunk × Nat),
          (recursiveSplit uSent fuel A off1 maxSize minSize chunks index
            >>= fun p =>
              recursiveSplit uSent fuel B off2 maxSize minSize p.1 p.2) =
            .ok out →
          (∀ c ∈ chunks, c.size ≤ maxSize) →
          (∀ (i : Nat) (c : Chunk), chunks[i]? = some c → 1 ≤ i →
            minSize ≤ c.size) →
          chunks.length ≤ out.1.length ∧ 1 ≤ out.1.length ∧
          (∀ c ∈ out.1, c.size ≤ maxSize) ∧
          (∀ (i : Nat) (c : Chunk), out.1[i]? = some c → 1 ≤ i →
            minSize ≤ c.size) := by
        intro A B off1 off2 chunks index out hok hmax hmin
        cases hr1 : recursiveSplit uSent fuel A off1 maxSize minSize
            chunks index with
        | error e =>
            rw [hr1] at hok
            exact Except.noConfusion hok
        | ok p1 =>
            rw [hr1] at hok
            have hok2 : recursiveSplit uSent fuel B off2 maxSize minSize
                p1.1 p1.2 = .ok out := hok
            obtain ⟨ha1, ha2, ha3, ha4⟩ :=
              ih A off1 chunks index p1 hr1 hmax hmin
            obtain ⟨hb1, hb2, hb3, hb4⟩ :=
              ih B off2 p1.1 p1.2 out hok2 ha3 ha4
            exact ⟨le_trans ha1 hb1, hb2, hb3, hb4⟩
      intro text offset chunks index out hok hmax hmin
      rw [recursiveSplit] at hok
      by_cases hsz : strBytes text ≤ maxSize
      · rw [if_pos hsz] at hok
        by_cases hpush : strBytes text ≥ minSize ∨ chunks = []
        · rw [if_pos hpush] at hok
          injection hok with hok
          subst hok
          refine ⟨by simp, by simp, ?_, ?_⟩
          · intro c hc
            rcases List.mem_append.mp hc with h | h
            · exact hmax c h
            · simp at h
              subst h
              exact hsz
          · intro i c hc hi
            rcases Nat.lt_or_ge i chunks.length with hlt | hge
            · rw [List.getElem?_append_left hlt] at hc
              exact hmin i c hc hi
            · rw [List.getElem?_append_right hge] at hc
              cases hd : i - chunks.length with
              | zero =>
                  rw [hd] at hc
                  simp at hc
                  subst hc
                  rcases hpush with hp | hp
                  · exact hp
                  · subst hp
                    simp at hd
                    omega
              | succ j =>
                  rw [hd] at hc
                  simp at hc
        · rw [if_neg hpush] at hok
          injection hok with hok
          subst hok
          push_neg at hpush
          refine ⟨le_refl _, ?_, hmax, hmin⟩
          have := hpush.2
          exact List.length_pos.mpr this
      · rw [if_neg hsz] at hok
        cases hf1 : findSentenceSplitPoint uSent text maxSize with
        | some sp =>
            rw [hf1] at hok
            dsimp only at hok
            cases hs1 : splitAtByteChecked text sp with
            | none =>
                rw [hs1] at hok
                exact Except.noConfusion hok
            | some lr =>
                rw [hs1] at hok
                exact hbind _ _ _ _ _ _ _ hok hmax hmin
        | none =>
        rw [hf1] at hok
        dsimp only at hok
        cases hf2 : findParagraphSplitPoint text maxSize with
        | some sp =>
            rw [hf2] at hok
            dsimp only at hok
            cases hs1 : splitAtByteChecked text sp with
            | none =>
                rw [hs1] at hok
                exact Except.noConfusion hok
            | some lr =>
                rw [hs1] at hok
                exact hbind _ _ _ _ _ _ _ hok hmax hmin
        | none =>
        rw [hf2] at hok
        dsimp only at hok
        cases hf3 : findWordSplitPoint text maxSize with
        | some sp =>
            rw [hf3] at hok
            dsimp only at hok
            cases hs1 : splitAtByteChecked text sp with
            | none =>
                rw [hs1] at hok
                exact Except.noConfusion hok
            | some lr =>
                rw [hs1] at hok
                exact hbind _ _ _ _ _ _ _ hok hmax hmin
        | none =>
        rw [hf3] at hok
        dsimp only at hok
        rw [if_pos (by omega : maxSize < strBytes text)] at hok
        cases hs1 : splitAtByteChecked text maxSize with
        | none =>
            rw [hs1] at hok
            exact Except.noConfusion hok
        | some lr =>
            rw [hs1] at hok
            exact hbind _ _ _ _ _ _ _ hok hmax hmin

/-- Bounds for `chunk_recursive` on a successful run. -/
theorem chunkRecursive_bounds (uSent : Str → List Str)
    (fuel : Nat) (text : Str) (maxSize minSize : Nat)
    (chunks : List Chunk)
    (hok : chunkRecursive uSent fuel text maxSize minSize = .ok chunks) :
    (∀ c ∈ chunks, c.size ≤ maxSize) ∧
    (∀ (i : Nat) (c : Chunk), chunks[i]? = some c → 1 ≤ i →
      minSize ≤ c.size) := by
  rw [chunkRecursive] at hok
  cases hr : recursiveSplit uSent fuel text 0 maxSize minSize [] 0 with
  | error e =>
      rw [hr] at hok
      exact Except.noConfusion hok
  | ok out =>
      rw [hr] at hok
      obtain ⟨_, h2, h3, h4⟩ := recursiveSplit_inv uSent maxSize minSize
        fuel text 0 [] 0 out hr (by intro c hc; simp at hc)
        (by intro i c hc _; simp at hc)
      injection hok with hok
      subst hok
      rw [if_neg (by intro he; rw [he] at h2; simp at h2)]
      exact ⟨h3, h4⟩

/-! ## Glue lemmas for the claim theorems -/

theorem contentBytes_eq (cs : List Chunk) :
    contentBytes cs = ((cs.map Chunk.content).map strBytes).sum := by
  unfold contentBytes
  rw [List.map_map]
  rfl

theorem chunkSentence_bytes (sentences : List Str) (target : Nat) :
    contentBytes (chunkSentence sentences target) ≤
      strBytes sentences.flatten := by
  obtain ⟨raws, h1, h2⟩ := chunkSentenceLoop_raws target sentences [] 0
  rw [contentBytes_eq, chunkSentence, h1]
  calc ((raws.map rustTrim).map strBytes).sum
      ≤ (raws.map strBytes).sum := by
        rw [List.map_map]
        exact List.sum_le_sum (fun r _ => strBytes_trim_le r)
    _ = strBytes raws.flatten := (strBytes_flatten raws).symm
    _ = strBytes sentences.flatten := by rw [h2]; simp

theorem restBytes_sum (sentences : List Str) :
    ∀ (n i : Nat), i + n = sentences.length →
      restBytes sentences n i = sumBytes (sentences.drop i) := by
  intro n
  induction n with
  | zero =>
      intro i hi
      rw [restBytes, List.drop_of_length_le (by omega)]
      rfl
  | succ n ih =>
      intro i hi
      have hlt : i < sentences.length := by omega
      have hlt' : i < (List.map strBytes sentences).length := by
        simpa using hlt
      have hd := List.drop_eq_getElem_cons hlt'
      rw [restBytes, ih (i + 1) (by omega),
        List.getD_eq_getElem sentences [] hlt]
      simp only [sumBytes, List.map_drop, hd, List.sum_cons]
      simp

theorem pushSplitChunks_length (limit : Nat) :
    ∀ (ws : List Str) (charPos index : Nat),
      (pushSplitChunks limit ws charPos index).1.length = ws.length := by
  intro ws
  induction ws with
  | nil => intro charPos index; simp [pushSplitChunks]
  | cons w ws ih =>
      intro charPos index
      rw [pushSplitChunks]
      rcases hp : pushSplitChunks limit ws (charPos + strBytes w)
          (index + 1) with ⟨cs, p2, i2⟩
      dsimp only
      have h := ih (charPos + strBytes w) (index + 1)
      rw [hp] at h
      simp [h]

theorem splitByWords_ne_nil (s : Str) (limit : Nat) (tok : String) :
    splitByWords s limit tok ≠ [] := by
  rw [splitByWords]
  split
  · simp
  · assumption

/-- The token-aware loop emits at least one chunk when it has pending
input or accumulated content. -/
theorem chunkTokenAwareLoop_length (tok : String) (limit : Nat) :
    ∀ (rest cur : List Str) (count index charPos startPos : Nat)
      (chunks : List Chunk),
      rest ≠ [] ∨ cur ≠ [] →
      chunks.length + 1 ≤
        (chunkTokenAwareLoop tok limit rest cur count index charPos
          startPos chunks).length := by
  intro rest
  induction rest with
  | nil =>
      intro cur count index charPos startPos chunks hne
      rw [chunkTokenAwareLoop]
      rcases hne with h | h
      · exact absurd rfl h
      · rw [if_neg h]
        simp
  | cons s rest ih =>
      intro cur count index charPos startPos chunks _
      rw [chunkTokenAwareLoop]
      dsimp only
      by_cases hf1 : count + countTokens tok s > limit ∧ cur ≠ []
      · rw [if_pos hf1]
        dsimp only
        by_cases h2 : countTokens tok s > limit
        · rw [if_pos h2, if_neg (by simp)]
          rcases hp : pushSplitChunks limit (splitByWords s limit tok)
              charPos (index + 1) with ⟨wcs, cp2, i2⟩
          dsimp only
          have hw : 1 ≤ wcs.length := by
            have h1 := pushSplitChunks_length limit
              (splitByWords s limit tok) charPos (index + 1)
            rw [hp] at h1
            simp only [h1]
            exact List.length_pos.mpr (splitByWords_ne_nil s limit tok)
          by_cases hr : rest = []
          · subst hr
            rw [chunkTokenAwareLoop, if_pos rfl]
            simp only [List.length_append, List.length_cons,
              List.length_nil]
            omega
          · refine le_trans ?_ (ih _ _ _ _ _ _ (Or.inl hr))
            simp only [List.length_append, List.length_cons,
              List.length_nil]
            omega
        · rw [if_neg h2]
          refine le_trans ?_ (ih _ _ _ _ _ _ (Or.inr (by simp)))
          simp only [List.length_append, List.length_cons,
            List.length_nil]
          omega
      · rw [if_neg hf1]
        dsimp only
        by_cases h2 : countTokens tok s > limit
        · rw [if_pos h2]
          by_cases hcur : cur ≠ []
          · rw [if_pos hcur]
            rcases hp : pushSplitChunks limit (splitByWords s limit tok)
                charPos (index + 1) with ⟨wcs, cp2, i2⟩
            dsimp only
            have hw : 1 ≤ wcs.length := by
              have h1 := pushSplitChunks_length limit
                (splitByWords s limit tok) charPos (index + 1)
              rw [hp] at h1
              simp only [h1]
              exact List.length_pos.mpr (splitByWords_ne_nil s limit tok)
            by_cases hr : rest = []
            · subst hr
              rw [chunkTokenAwareLoop, if_pos rfl]
              simp only [List.length_append, List.length_cons,
                List.length_nil]
              omega
            · refine le_trans ?_ (ih _ _ _ _ _ _ (Or.inl hr))
              simp only [List.length_append, List.length_cons,
                List.length_nil]
              omega
          · rw [if_neg hcur]
            rcases hp : pushSplitChunks limit (splitByWords s limit tok)
                charPos index with ⟨wcs, cp2, i2⟩
            dsimp only
            have hw : 1 ≤ wcs.length := by
              have h1 := pushSplitChunks_length limit
                (splitByWords s limit tok) charPos index
              rw [hp] at h1
              simp only [h1]
              exact List.length_pos.mpr (splitByWords_ne_nil s limit tok)
            have hcur' : cur = [] := not_ne_iff.mp hcur
            by_cases hr : rest = []
            · subst hr
              rw [chunkTokenAwareLoop, if_pos hcur']
              simp only [List.length_append]
              omega
            · refine le_trans ?_ (ih _ _ _ _ _ _ (Or.inl hr))
              simp only [List.length_append]
              omega
        · rw [if_neg h2]
          refine le_trans ?_ (ih _ _ _ _ _ _ (Or.inr (by simp)))
          omega

/-! ## Line, word-split and join byte accounting -/

theorem utf8Size_one_le (c : Char) : 1 ≤ c.utf8Size := Char.utf8Size_pos c

theorem strBytes_trimStart_le (s : Str) :
    strBytes (rustTrimStart s) ≤ strBytes s :=
  strBytes_sublist (List.dropWhile_sublist _)

theorem joinNl_cons_cons (s r : Str) (rs : List Str) :
    joinNl (s :: r :: rs) = s ++ '\n' :: joinNl (r :: rs) := rfl

theorem strBytes_joinNl :
    ∀ g : List Str, g ≠ [] →
      strBytes (joinNl g) + 1 = (g.map strBytes).sum + g.length := by
  intro g
  induction g with
  | nil => simp
  | cons s rest ih =>
      intro _
      cases rest with
      | nil => simp [joinNl]
      | cons r rs =>
          rw [joinNl_cons_cons]
          rw [strBytes_append, strBytes_cons, utf8Size_nl]
          have := ih (List.cons_ne_nil r rs)
          simp only [List.map_cons, List.sum_cons, List.length_cons] at *
          omega

theorem rustTrimEnd_append_nl (s : Str) :
    rustTrimEnd (s ++ ['\n']) = rustTrimEnd s := by
  unfold rustTrimEnd
  rw [List.reverse_append]
  simp only [List.reverse_cons, List.reverse_nil, List.nil_append,
    List.singleton_append]
  rw [List.dropWhile_cons_of_pos (by decide)]

theorem sum_le_sublist {a b : List Nat} (h : a.Sublist b) :
    a.sum ≤ b.sum := by
  induction h with
  | slnil => exact le_refl _
  | cons x h ih => simpa using le_trans ih (Nat.le_add_left _ _)
  | cons₂ x h ih => simpa using ih

theorem splitOnChar_bytes (sep : Char) (hsep : sep.utf8Size = 1) :
    ∀ s : Str,
      sumBytes (splitOnChar sep s) + (splitOnChar sep s).length =
        strBytes s + 1 := by
  intro s
  induction s with
  | nil => simp [splitOnChar, sumBytes, strBytes]
  | cons c cs ih =>
      by_cases hc : c = sep
      · rw [splitOnChar, if_pos hc]
        have h0 : sumBytes (([] : Str) :: splitOnChar sep cs) =
            sumBytes (splitOnChar sep cs) := by
          simp [sumBytes, strBytes]
        rw [h0, List.length_cons, strBytes_cons, hc, hsep]
        omega
      · rcases h2 : splitOnChar sep cs with _ | ⟨p, ps⟩
        · exact absurd h2 (splitOnChar_ne_nil sep cs)
        · rw [splitOnChar, if_neg hc, h2]
          rw [h2] at ih
          simp only [sumBytes, List.map_cons, List.sum_cons,
            List.length_cons, strBytes_cons, strBytes_append] at *
          omega

theorem stripCr_bytes_le (s : Str) : strBytes (stripCr s) ≤ strBytes s := by
  unfold stripCr
  split
  · rename_i rest heq
    have hs : s = rest.reverse ++ ['\r'] := by
      rw [← List.reverse_reverse s, heq]
      simp
    rw [hs, strBytes_append]
    exact Nat.le_add_right _ _
  · exact le_refl _

theorem rustLines_bytes (s : Str) :
    sumBytes (rustLines s) + (rustLines s).length ≤ strBytes s + 1 := by
  unfold rustLines
  by_cases h : s = []
  · rw [if_pos h]
    simp [sumBytes]
  · rw [if_neg h]
    dsimp only
    have hsplit := splitOnChar_bytes '\n' (by decide) s
    have hmap : ∀ l : List Str, sumBytes (l.map stripCr) ≤ sumBytes l := by
      intro l
      unfold sumBytes
      rw [List.map_map]
      exact List.sum_le_sum (fun x _ => stripCr_bytes_le x)
    by_cases hlast : (splitOnChar '\n' s).getLast? = some ([] : Str)
    · rw [if_pos hlast]
      have hsub : sumBytes (splitOnChar '\n' s).dropLast ≤
          sumBytes (splitOnChar '\n' s) := by
        unfold sumBytes
        exact sum_le_sublist ((List.dropLast_sublist _).map strBytes)
      have hlen : (splitOnChar '\n' s).dropLast.length ≤
          (splitOnChar '\n' s).length :=
        (List.dropLast_sublist _).length_le
      have hm := hmap (splitOnChar '\n' s).dropLast
      simp only [List.length_map]
      omega
    · rw [if_neg hlast]
      have hm := hmap (splitOnChar '\n' s)
      simp only [List.length_map]
      omega

/-! ## Positional index lemmas for the remaining strategies -/

theorem range_append_range' (a b : Nat) :
    List.range a ++ List.range' a b = List.range (a + b) := by
  rw [List.range_eq_range', List.range_eq_range']
  have h := List.range'_append 0 a b 1
  simpa [Nat.add_comm] using h

theorem chunkParagraphLoop_indices (targetSize : Nat) :
    ∀ (rest : List Str) (current : Str) (index : Nat),
      (chunkParagraphLoop targetSize rest current index).map Chunk.index
        = List.range' index
            (chunkParagraphLoop targetSize rest current index).length := by
  intro rest
  induction rest with
  | nil =>
      intro current index
      by_cases h : current = [] <;>
        simp [chunkParagraphLoop, h, mkParagraphChunk, List.range']
  | cons p rest ih =>
      intro current index
      by_cases h : current.length + p.length > targetSize ∧ current ≠ []
      · simp [chunkParagraphLoop, h, mkParagraphChunk, ih, List.range']
      · simp [chunkParagraphLoop, h, ih]

theorem chunkCodeLoop_indices (targetSize : Nat) :
    ∀ (rest : List Str) (current : Str) (startLine curLine index : Nat),
      (chunkCodeLoop targetSize rest current startLine curLine
          index).map Chunk.index
        = List.range' index
            (chunkCodeLoop targetSize rest current startLine curLine
              index).length := by
  intro rest
  induction rest with
  | nil =>
      intro current startLine curLine index
      by_cases h : current = [] <;>
        simp [chunkCodeLoop, h, mkCodeChunk, List.range']
  | cons line rest ih =>
      intro current startLine curLine index
      by_cases h : strBytes current + strBytes line > targetSize ∧
          current ≠ [] ∧ isCodeBoundary line
      · simp [chunkCodeLoop, h, mkCodeChunk, ih, List.range']
      · simp [chunkCodeLoop, h, ih]

theorem chunkDialogueLoop_indices (detect : Str → Option Str)
    (total : Nat) :
    ∀ (lines : List Str) (lineIdx charPos csl csp : Nat)
      (spk : Option Str) (cur : List Str) (chunks : List Chunk),
      chunks.map Chunk.index = List.range chunks.length →
      (chunkDialogueLoop detect total lines lineIdx charPos csl csp spk
          cur chunks).map Chunk.index =
        List.range (chunkDialogueLoop detect total lines lineIdx charPos
          csl csp spk cur chunks).length := by
  intro lines
  induction lines with
  | nil =>
      intro lineIdx charPos csl csp spk cur chunks hinv
      rw [chunkDialogueLoop]
      by_cases h : cur = []
      · rw [if_pos h]
        exact hinv
      · rw [if_neg h]
        simp [mkDialogueChunk, hinv, List.range_succ]
  | cons line rest ih =>
      intro lineIdx charPos csl csp spk cur chunks hinv
      rw [chunkDialogueLoop]
      rcases hdet : (detect line).map rustTrim with _ | ns
      · exact ih _ _ _ _ _ _ _ hinv
      · dsimp only
        by_cases h : spk ≠ some ns ∧ cur ≠ []
        · rw [if_pos h]
          refine ih _ _ _ _ _ _ _ ?_
          simp [mkDialogueChunk, hinv, List.range_succ]
        · rw [if_neg h]
          exact ih _ _ _ _ _ _ _ hinv

theorem pushSplitChunks_indices (limit : Nat) :
    ∀ (ws : List Str) (charPos index : Nat),
      (pushSplitChunks limit ws charPos index).1.map Chunk.index =
        List.range' index ws.length ∧
      (pushSplitChunks limit ws charPos index).2.2 =
        index + ws.length := by
  intro ws
  induction ws with
  | nil =>
      intro charPos index
      simp [pushSplitChunks, List.range']
  | cons w ws ih =>
      intro charPos index
      rw [pushSplitChunks]
      rcases hp : pushSplitChunks limit ws (charPos + strBytes w)
          (index + 1) with ⟨cs, p2, i2⟩
      dsimp only
      have h := ih (charPos + strBytes w) (index + 1)
      rw [hp] at h
      dsimp only at h
      constructor
      · simp [mkTokenSplitChunk, h.1, List.range']
      · rw [h.2, List.length_cons]
        omega

theorem indexed_push (chunks : List Chunk) (c : Chunk)
    (h : chunks.map Chunk.index = List.range chunks.length)
    (hc : c.index = chunks.length) :
    (chunks ++ [c]).map Chunk.index =
      List.range (chunks ++ [c]).length := by
  simp [h, hc, List.range_succ]

theorem indexed_extend (chunks ws : List Chunk)
    (h : chunks.map Chunk.index = List.range chunks.length)
    (hw : ws.map Chunk.index = List.range' chunks.length ws.length) :
    (chunks ++ ws).map Chunk.index =
      List.range (chunks ++ ws).length := by
  rw [List.map_append, h, hw, range_append_range']
  congr 1
  simp

theorem chunkTokenAwareLoop_indices (tok : String) (limit : Nat) :
    ∀ (rest cur : List Str) (count index charPos startPos : Nat)
      (chunks : List Chunk),
      index = chunks.length →
      chunks.map Chunk.index = List.range chunks.length →
      (chunkTokenAwareLoop tok limit rest cur count index charPos
          startPos chunks).map Chunk.index =
        List.range (chunkTokenAwareLoop tok limit rest cur count index
          charPos startPos chunks).length := by
  intro rest
  induction rest with
  | nil =>
      intro cur count index charPos startPos chunks hidx hinv
      rw [chunkTokenAwareLoop]
      by_cases h : cur = []
      · rw [if_pos h]
        exact hinv
      · rw [if_neg h]
        exact indexed_push chunks _ hinv (by simp [mkTokenChunk, hidx])
  | cons s rest ih =>
      intro cur count index charPos startPos chunks hidx hinv
      rw [chunkTokenAwareLoop]
      dsimp only
      by_cases hf1 : count + countTokens tok s > limit ∧ cur ≠ []
      · rw [if_pos hf1]
        dsimp only
        have h1 : (chunks ++ [mkTokenChunk cur startPos count limit
            index]).map Chunk.index =
            List.range (chunks ++ [mkTokenChunk cur startPos count limit
              index]).length :=
          indexed_push chunks _ hinv (by simp [mkTokenChunk, hidx])
        have hlen1 : (chunks ++ [mkTokenChunk cur startPos count limit
            index]).length = index + 1 := by
          simp [hidx]
        by_cases h2 : countTokens tok s > limit
        · rw [if_pos h2, if_neg (by simp)]
          rcases hp : pushSplitChunks limit (splitByWords s limit tok)
              charPos (index + 1) with ⟨wcs, cp2, i2⟩
          dsimp only
          have hpi := pushSplitChunks_indices limit
            (splitByWords s limit tok) charPos (index + 1)
          rw [hp] at hpi
          dsimp only at hpi
          have hwl : wcs.length = (splitByWords s limit tok).length := by
            have hl := pushSplitChunks_length limit
              (splitByWords s limit tok) charPos (index + 1)
            rw [hp] at hl
            exact hl
          refine ih _ _ _ _ _ _ ?_ ?_
          · simp only [List.length_append, List.length_cons,
              List.length_nil]
            rw [hpi.2, hwl]
            omega
          · refine indexed_extend _ _ h1 ?_
            rw [hpi.1, hwl, hlen1]
        · rw [if_neg h2]
          refine ih _ _ _ _ _ _ ?_ h1
          rw [hlen1]
      · rw [if_neg hf1]
        dsimp only
        by_cases h2 : countTokens tok s > limit
        · rw [if_pos h2]
          by_cases hcur : cur ≠ []
          · rw [if_pos hcur]
            have h1 : (chunks ++ [mkTokenChunk cur startPos count limit
                index]).map Chunk.index =
                List.range (chunks ++ [mkTokenChunk cur startPos count
                  limit index]).length :=
              indexed_push chunks _ hinv (by simp [mkTokenChunk, hidx])
            have hlen1 : (chunks ++ [mkTokenChunk cur startPos count
                limit index]).length = index + 1 := by
              simp [hidx]
            rcases hp : pushSplitChunks limit (splitByWords s limit tok)
                charPos (index + 1) with ⟨wcs, cp2, i2⟩
            dsimp only
            have hpi := pushSplitChunks_indices limit
              (splitByWords s limit tok) charPos (index + 1)
            rw [hp] at hpi
            dsimp only at hpi
            have hwl : wcs.length =
                (splitByWords s limit tok).length := by
              have hl := pushSplitChunks_length limit
                (splitByWords s limit tok) charPos (index + 1)
              rw [hp] at hl
              exact hl
            refine ih _ _ _ _ _ _ ?_ ?_
            · simp only [List.length_append, List.length_cons,
                List.length_nil]
              rw [hpi.2, hwl]
              omega
            · refine indexed_extend _ _ h1 ?_
              rw [hpi.1, hwl, hlen1]
          · rw [if_neg hcur]
            rcases hp : pushSplitChunks limit (splitByWords s limit tok)
                charPos index with ⟨wcs, cp2, i2⟩
            dsimp only
            have hpi := pushSplitChunks_indices limit
              (splitByWords s limit tok) charPos index
            rw [hp] at hpi
            dsimp only at hpi
            have hwl : wcs.length =
                (splitByWords s limit tok).length := by
              have hl := pushSplitChunks_length limit
                (splitByWords s limit tok) charPos index
              rw [hp] at hl
              exact hl
            refine ih _ _ _ _ _ _ ?_ ?_
            · simp only [List.length_append]
              rw [hpi.2, hwl]
              omega
            · refine indexed_extend _ _ hinv ?_
              rw [hpi.1, hwl, hidx]
        · rw [if_neg h2]
          exact ih _ _ _ _ _ _ hidx hinv

theorem recursiveSplit_indices (uSent : Str → List Str)
    (maxSize minSize : Nat) :
    ∀ (fuel : Nat) (text : Str) (offset : Nat) (chunks : List Chunk)
      (index : Nat) (out : List Chunk × Nat),
      recursiveSplit uSent fuel text offset maxSize minSize chunks index
        = .ok out →
      index = chunks.length →
      chunks.map Chunk.index = List.range chunks.length →
      out.2 = out.1.length ∧
      out.1.map Chunk.index = List.range out.1.length := by
  intro fuel
  induction fuel with
  | zero =>
      intro text offset chunks index out hok _ _
      rw [recursiveSplit] at hok
      exact Except.noConfusion hok
  | succ fuel ih =>
      have hbind : ∀ (A B : Str) (off1 off2 : Nat) (chunks : List Chunk)
          (index : Nat) (out : List Chunk × Nat),
          (recursiveSplit uSent fuel A off1 maxSize minSize chunks index
            >>= fun p =>
              recursiveSplit uSent fuel B off2 maxSize minSize p.1 p.2) =
            .ok out →
          index = chunks.length →
          chunks.map Chunk.index = List.range chunks.length →
          out.2 = out.1.length ∧
          out.1.map Chunk.index = List.range out.1.length := by
        intro A B off1 off2 chunks index out hok hidx hinv
        cases hr1 : recursiveSplit uSent fuel A off1 maxSize minSize
            chunks index with
        | error e =>
            rw [hr1] at hok
            exact Except.noConfusion hok
        | ok p1 =>
            rw [hr1] at hok
            have hok2 : recursiveSplit uSent fuel B off2 maxSize minSize
                p1.1 p1.2 = .ok out := hok
            obtain ⟨ha1, ha2⟩ := ih A off1 chunks index p1 hr1 hidx hinv
            exact ih B off2 p1.1 p1.2 out hok2 ha1 ha2
      intro text offset chunks index out hok hidx hinv
      rw [recursiveSplit] at hok
      by_cases hsz : strBytes text ≤ maxSize
      · rw [if_pos hsz] at hok
        by_cases hpush : strBytes text ≥ minSize ∨ chunks = []
        · rw [if_pos hpush] at hok
          injection hok with hok
          subst hok
          constructor
          · simp [hidx]
          · exact indexed_push chunks _ hinv
              (by simp [mkRecursiveChunk, hidx])
        · rw [if_neg hpush] at hok
          injection hok with hok
          subst hok
          exact ⟨hidx, hinv⟩
      · rw [if_neg hsz] at hok
        cases hf1 : findSentenceSplitPoint uSent text maxSize with
        | some sp =>
            rw [hf1] at hok
            dsimp only at hok
            cases hs1 : splitAtByteChecked text sp with
            | none =>
                rw [hs1] at hok
                exact Except.noConfusion hok
            | some lr =>
                rw [hs1] at hok
                exact hbind _ _ _ _ _ _ _ hok hidx hinv
        | none =>
        rw [hf1] at hok
        dsimp only at hok
        cases hf2 : findParagraphSplitPoint text maxSize with
        | some sp =>
            rw [hf2] at hok
            dsimp only at hok
            cases hs1 : splitAtByteChecked text sp with
            | none =>
                rw [hs1] at hok
                exact Except.noConfusion hok
            | some lr =>
                rw [hs1] at hok
                exact hbind _ _ _ _ _ _ _ hok hidx hinv
        | none =>
        rw [hf2] at hok
        dsimp only at hok
        cases hf3 : findWordSplitPoint text maxSize with
        | some sp =>
            rw [hf3] at hok
            dsimp only at hok
            cases hs1 : splitAtByteChecked text sp with
            | none =>
                rw [hs1] at hok
                exact Except.noConfusion hok
            | some lr =>
                rw [hs1] at hok
                exact hbind _ _ _ _ _ _ _ hok hidx hinv
        | none =>
        rw [hf3] at hok
        dsimp only at hok
        rw [if_pos (by omega : maxSize < strBytes text)] at hok
        cases hs1 : splitAtByteChecked text maxSize with
        | none =>
            rw [hs1] at hok
            exact Except.noConfusion hok
        | some lr =>
            rw [hs1] at hok
            exact hbind _ _ _ _ _ _ _ hok hidx hinv

/-! ## Byte coverage for Code, Dialogue, TokenAware, Recursive, Smart -/

theorem chunkCodeLoop_bytes (targetSize : Nat) :
    ∀ (rest : List Str) (current : Str) (startLine curLine index : Nat),
      (current = [] ∨ ∃ c', current = c' ++ ['\n']) →
      (current ≠ [] ∨ rest ≠ []) →
      contentBytes (chunkCodeLoop targetSize rest current startLine
          curLine index) + 1 ≤
        strBytes current + sumBytes rest + rest.length := by
  intro rest
  induction rest with
  | nil =>
      intro current startLine curLine index hcur hne
      rcases hne with h | h
      · rcases hcur with rfl | ⟨c', rfl⟩
        · exact absurd rfl h
        · rw [chunkCodeLoop, if_neg h]
          have ht : rustTrimEnd (c' ++ ['\n']) = rustTrimEnd c' :=
            rustTrimEnd_append_nl c'
          have hle := strBytes_trimEnd_le c'
          simp only [contentBytes, List.map_cons, List.map_nil,
            List.sum_cons, List.sum_nil, mkCodeChunk, ht,
            strBytes_append, sumBytes, List.length_nil]
          have : strBytes (['\n'] : Str) = 1 := by decide
          omega
      · exact absurd rfl h
  | cons line rest ih =>
      intro current startLine curLine index hcur hne
      rw [chunkCodeLoop]
      by_cases h : strBytes current + strBytes line > targetSize ∧
          current ≠ [] ∧ isCodeBoundary line
      · rw [if_pos h]
        rcases hcur with rfl | ⟨c', rfl⟩
        · exact absurd rfl h.2.1
        · have hih := ih (line ++ ['\n']) curLine (curLine + 1)
            (index + 1) (Or.inr ⟨line, rfl⟩) (Or.inl (by simp))
          have ht : rustTrimEnd (c' ++ ['\n']) = rustTrimEnd c' :=
            rustTrimEnd_append_nl c'
          have hle := strBytes_trimEnd_le c'
          have hnl : strBytes (['\n'] : Str) = 1 := by decide
          rw [contentBytes_cons]
          simp only [mkCodeChunk, ht, strBytes_append, sumBytes,
            List.map_cons, List.sum_cons, List.length_cons] at *
          omega
      · rw [if_neg h]
        have hih := ih (current ++ line ++ ['\n']) startLine
          (curLine + 1) index (Or.inr ⟨current ++ line, rfl⟩)
          (Or.inl (by simp))
        have hnl : strBytes (['\n'] : Str) = 1 := by decide
        simp only [strBytes_append, sumBytes, List.map_cons,
          List.sum_cons, List.length_cons] at *
        omega

theorem chunkCode_bytes (text : Str) (target : Nat) :
    contentBytes (chunkCode text target) ≤ strBytes text := by
  unfold chunkCode
  by_cases h : rustLines text = []
  · rw [h]
    simp [chunkCodeLoop, contentBytes]
  · have hloop := chunkCodeLoop_bytes target (rustLines text) [] 0 0 0
      (Or.inl rfl) (Or.inr h)
    have hrl := rustLines_bytes text
    rw [strBytes_nil] at hloop
    omega

theorem chunkDialogueLoop_bytes (detect : Str → Option Str)
    (total : Nat) :
    ∀ (lines : List Str) (lineIdx charPos csl csp : Nat)
      (spk : Option Str) (cur : List Str) (chunks : List Chunk),
      contentBytes (chunkDialogueLoop detect total lines lineIdx charPos
          csl csp spk cur chunks) ≤
        contentBytes chunks + strBytes (joinNl (cur ++ lines)) := by
  intro lines
  induction lines with
  | nil =>
      intro lineIdx charPos csl csp spk cur chunks
      rw [chunkDialogueLoop]
      by_cases h : cur = []
      · rw [if_pos h]
        exact Nat.le_add_right _ _
      · rw [if_neg h]
        rw [contentBytes_append]
        simp [contentBytes, mkDialogueChunk]
  | cons line rest ih =>
      intro lineIdx charPos csl csp spk cur chunks
      rw [chunkDialogueLoop]
      rcases hdet : (detect line).map rustTrim with _ | ns
      · have := ih (lineIdx + 1) (charPos + strBytes line + 1) csl csp
          spk (cur ++ [line]) chunks
        simpa [List.append_assoc] using this
      · dsimp only
        by_cases h : spk ≠ some ns ∧ cur ≠ []
        · rw [if_pos h]
          have hih := ih (lineIdx + 1) (charPos + strBytes line + 1)
            lineIdx charPos (some ns) [line]
            (chunks ++ [mkDialogueChunk cur csp csl lineIdx spk
              chunks.length])
          rw [contentBytes_append] at hih
          have hmk : contentBytes [mkDialogueChunk cur csp csl lineIdx
              spk chunks.length] = strBytes (joinNl cur) := by
            simp [contentBytes, mkDialogueChunk]
          rw [hmk] at hih
          have hne : cur ++ line :: rest ≠ [] := by
            simp
          have h1 := strBytes_joinNl cur h.2
          have h2 := strBytes_joinNl (line :: rest)
            (List.cons_ne_nil _ _)
          have h3 := strBytes_joinNl (cur ++ line :: rest) hne
          simp only [List.map_append, List.sum_append,
            List.length_append, List.singleton_append] at *
          omega
        · rw [if_neg h]
          have := ih (lineIdx + 1) (charPos + strBytes line + 1) csl csp
            (some ns) (cur ++ [line]) chunks
          simpa [List.append_assoc] using this

theorem chunkDialogue_bytes (patternOk : Bool)
    (detect : Str → Option Str) (text : Str) :
    contentBytes (chunkDialogue patternOk detect text) ≤
      strBytes text := by
  unfold chunkDialogue
  by_cases hp : ¬ patternOk
  · rw [if_pos hp]
    simp [contentBytes, dialogueRegexErrChunk]
  · rw [if_neg hp]
    dsimp only
    by_cases hc : chunkDialogueLoop detect (rustLines text).length
        (rustLines text) 0 0 0 0 none [] [] = []
    · rw [if_pos hc]
      simp [contentBytes, dialogueNoSpeakerChunk]
    · rw [if_neg hc]
      have hloop := chunkDialogueLoop_bytes detect
        (rustLines text).length (rustLines text) 0 0 0 0 none [] []
      have hjoin : strBytes (joinNl (rustLines text)) ≤ strBytes text := by
        by_cases hl : rustLines text = []
        · simp [hl, joinNl, strBytes_nil]
        · have h1 := strBytes_joinNl (rustLines text) hl
          have h2 := rustLines_bytes text
          simp only [sumBytes] at h2
          omega
      simp only [contentBytes_nil, List.nil_append] at hloop
      omega

theorem splitWsAux_bytes :
    ∀ (s cur : Str),
      sumBytes (splitWsAux s cur) + (splitWsAux s cur).length ≤
        strBytes s + strBytes cur + 1 := by
  intro s
  induction s with
  | nil =>
      intro cur
      rw [splitWsAux]
      by_cases h : cur = []
      · rw [if_pos h]
        simp [sumBytes]
      · rw [if_neg h]
        simp [sumBytes]
  | cons c cs ih =>
      intro cur
      rw [splitWsAux]
      have hc1 : 1 ≤ c.utf8Size := utf8Size_one_le c
      by_cases hw : rustIsWhitespace c
      · rw [if_pos hw]
        by_cases h : cur = []
        · rw [if_pos h]
          have := ih []
          simp only [strBytes_cons, strBytes_nil] at *
          omega
        · rw [if_neg h]
          have := ih []
          simp only [sumBytes, List.map_cons, List.sum_cons,
            List.length_cons, strBytes_cons, strBytes_nil] at *
          omega
      · rw [if_neg hw]
        have := ih (cur ++ [c])
        simp only [strBytes_cons, strBytes_append, strBytes_nil] at *
        omega

theorem splitWs_bytes (s : Str) :
    sumBytes (splitWs s) + (splitWs s).length ≤ strBytes s + 1 := by
  have h := splitWsAux_bytes s []
  rw [strBytes_nil] at h
  simpa [splitWs] using h

theorem splitByWordsLoop_bytes (tok : String) (limit : Nat) :
    ∀ (ws cur : List Str) (count : Nat), cur ≠ [] →
      sumBytes (splitByWordsLoop tok limit ws cur count) + 1 ≤
        sumBytes cur + cur.length + sumBytes ws + ws.length := by
  intro ws
  induction ws with
  | nil =>
      intro cur count h
      rw [splitByWordsLoop, if_neg h]
      have hjs := strBytes_joinSpace cur h
      simp only [sumBytes, List.map_cons, List.map_nil, List.sum_cons,
        List.sum_nil, List.length_cons, List.length_nil] at *
      omega
  | cons w ws ih =>
      intro cur count h
      rw [splitByWordsLoop]
      by_cases hf : count + countTokens tok w > limit ∧ cur ≠ []
      · rw [if_pos hf]
        have hih := ih [w] (countTokens tok w) (List.cons_ne_nil _ _)
        have hjs := strBytes_joinSpace cur h
        simp only [sumBytes, List.map_cons, List.map_nil, List.sum_cons,
          List.sum_nil, List.length_cons, List.length_nil] at *
        omega
      · rw [if_neg hf]
        have hih := ih (cur ++ [w]) (count + countTokens tok w)
          (by simp)
        simp only [sumBytes, List.map_append, List.sum_append,
          List.map_cons, List.map_nil, List.sum_cons, List.sum_nil,
          List.length_append, List.length_cons, List.length_nil] at *
        omega

theorem splitByWords_bytes (s : Str) (limit : Nat) (tok : String) :
    sumBytes (splitByWords s limit tok) ≤ strBytes s := by
  rw [splitByWords]
  by_cases h : splitByWordsLoop tok limit (splitWs s) [] 0 = []
  · rw [if_pos h]
    simp [sumBytes]
  · rw [if_neg h]
    rcases hws : splitWs s with _ | ⟨w, ws⟩
    · rw [hws] at h
      exact absurd rfl h
    · rw [hws] at h
      simp only [splitByWordsLoop] at h ⊢
      rw [if_neg (by simp)] at h ⊢
      have hih := splitByWordsLoop_bytes tok limit ws [w]
        (0 + countTokens tok w) (List.cons_ne_nil _ _)
      have hsw := splitWs_bytes s
      rw [hws] at hsw
      simp only [sumBytes, List.map_cons, List.map_nil, List.sum_cons,
        List.sum_nil, List.length_cons, List.length_nil,
        List.nil_append] at *
      omega

theorem pushSplitChunks_bytes (limit : Nat) :
    ∀ (ws : List Str) (charPos index : Nat),
      contentBytes (pushSplitChunks limit ws charPos index).1 =
        sumBytes ws := by
  intro ws
  induction ws with
  | nil =>
      intro charPos index
      simp [pushSplitChunks, contentBytes, sumBytes]
  | cons w ws ih =>
      intro charPos index
      rw [pushSplitChunks]
      rcases hp : pushSplitChunks limit ws (charPos + strBytes w)
          (index + 1) with ⟨cs, p2, i2⟩
      dsimp only
      have h := ih (charPos + strBytes w) (index + 1)
      rw [hp] at h
      dsimp only at h
      rw [contentBytes_cons, h]
      simp [mkTokenSplitChunk, sumBytes]

theorem chunkTokenAwareLoop_bytes (tok : String) (limit : Nat) :
    ∀ (rest cur : List Str) (count index charPos startPos : Nat)
      (chunks : List Chunk),
      contentBytes (chunkTokenAwareLoop tok limit rest cur count index
          charPos startPos chunks) ≤
        contentBytes chunks + sumBytes cur + sumBytes rest := by
  intro rest
  induction rest with
  | nil =>
      intro cur count index charPos startPos chunks
      rw [chunkTokenAwareLoop]
      by_cases h : cur = []
      · rw [if_pos h]
        simp [sumBytes]
      · rw [if_neg h]
        rw [contentBytes_append]
        have hfl : strBytes cur.flatten = sumBytes cur := by
          rw [strBytes_flatten]
        simp [contentBytes, mkTokenChunk, hfl, sumBytes]
  | cons s rest ih =>
      intro cur count index charPos startPos chunks
      rw [chunkTokenAwareLoop]
      dsimp only
      have hfl : strBytes cur.flatten = sumBytes cur := by
        rw [strBytes_flatten]
      by_cases hf1 : count + countTokens tok s > limit ∧ cur ≠ []
      · rw [if_pos hf1]
        dsimp only
        by_cases h2 : countTokens tok s > limit
        · rw [if_pos h2, if_neg (by simp)]
          rcases hp : pushSplitChunks limit (splitByWords s limit tok)
              charPos (index + 1) with ⟨wcs, cp2, i2⟩
          dsimp only
          have hw : contentBytes wcs ≤ strBytes s := by
            have h1 := pushSplitChunks_bytes limit
              (splitByWords s limit tok) charPos (index + 1)
            rw [hp] at h1
            dsimp only at h1
            rw [h1]
            exact splitByWords_bytes s limit tok
          have hih := ih [] 0 i2 cp2 cp2
            ((chunks ++ [mkTokenChunk cur startPos count limit index]) ++
              wcs)
          rw [contentBytes_append, contentBytes_append] at hih
          have hmk : contentBytes [mkTokenChunk cur startPos count limit
              index] = sumBytes cur := by
            simp [contentBytes, mkTokenChunk, hfl]
          rw [hmk] at hih
          simp only [sumBytes, List.map_nil, List.sum_nil,
            List.map_cons, List.sum_cons] at *
          omega
        · rw [if_neg h2]
          have hih := ih ([] ++ [s]) (0 + countTokens tok s) (index + 1)
            (charPos + strBytes s) charPos
            (chunks ++ [mkTokenChunk cur startPos count limit index])
          rw [contentBytes_append] at hih
          have hmk : contentBytes [mkTokenChunk cur startPos count limit
              index] = sumBytes cur := by
            simp [contentBytes, mkTokenChunk, hfl]
          rw [hmk] at hih
          simp only [sumBytes, List.map_nil, List.sum_nil,
            List.map_cons, List.sum_cons, List.nil_append] at *
          omega
      · rw [if_neg hf1]
        dsimp only
        by_cases h2 : countTokens tok s > limit
        · rw [if_pos h2]
          by_cases hcur : cur ≠ []
          · rw [if_pos hcur]
            rcases hp : pushSplitChunks limit (splitByWords s limit tok)
                charPos (index + 1) with ⟨wcs, cp2, i2⟩
            dsimp only
            have hw : contentBytes wcs ≤ strBytes s := by
              have h1 := pushSplitChunks_bytes limit
                (splitByWords s limit tok) charPos (index + 1)
              rw [hp] at h1
              dsimp only at h1
              rw [h1]
              exact splitByWords_bytes s limit tok
            have hih := ih [] 0 i2 cp2 cp2
              ((chunks ++ [mkTokenChunk cur startPos count limit index])
                ++ wcs)
            rw [contentBytes_append, contentBytes_append] at hih
            have hmk : contentBytes [mkTokenChunk cur startPos count
                limit index] = sumBytes cur := by
              simp [contentBytes, mkTokenChunk, hfl]
            rw [hmk] at hih
            simp only [sumBytes, List.map_nil, List.sum_nil,
              List.map_cons, List.sum_cons] at *
            omega
          · rw [if_neg hcur]
            rcases hp : pushSplitChunks limit (splitByWords s limit tok)
                charPos index with ⟨wcs, cp2, i2⟩
            dsimp only
            have hw : contentBytes wcs ≤ strBytes s := by
              have h1 := pushSplitChunks_bytes limit
                (splitByWords s limit tok) charPos index
              rw [hp] at h1
              dsimp only at h1
              rw [h1]
              exact splitByWords_bytes s limit tok
            have hih := ih cur count i2 cp2 cp2 (chunks ++ wcs)
            rw [contentBytes_append] at hih
            simp only [sumBytes, List.map_cons, List.sum_cons] at *
            omega
        · rw [if_neg h2]
          have hih := ih (cur ++ [s]) (count + countTokens tok s) index
            (charPos + strBytes s) startPos chunks
          simp only [sumBytes, List.map_append, List.sum_append,
            List.map_cons, List.map_nil, List.sum_cons,
            List.sum_nil] at *
          omega

theorem chunkTokenAware_bytes (uSent : Str → List Str) (text : Str)
    (limit : Nat) (tok : String)
    (hflat : (uSent text).flatten = text) :
    contentBytes (chunkTokenAware uSent text limit tok) ≤
      strBytes text := by
  unfold chunkTokenAware
  dsimp only
  by_cases h : chunkTokenAwareLoop tok limit (uSent text) [] 0 0 0 0 []
      = []
  · rw [if_pos h]
    simp [contentBytes, tokenAwareFallbackChunk]
  · rw [if_neg h]
    have hloop := chunkTokenAwareLoop_bytes tok limit (uSent text) [] 0
      0 0 0 []
    have hsum : sumBytes (uSent text) = strBytes text := by
      conv_rhs => rw [← hflat]
      rw [strBytes_flatten]
    rw [contentBytes_nil, hsum] at hloop
    simpa [sumBytes] using hloop

theorem splitAtByteChecked_append :
    ∀ (s : Str) (n : Nat) (p : Str × Str),
      splitAtByteChecked s n = some p → p.1 ++ p.2 = s := by
  intro s
  induction s with
  | nil =>
      intro n p h
      cases n with
      | zero =>
          rw [splitAtByteChecked] at h
          injection h with h
          subst h
          rfl
      | succ n =>
          rw [splitAtByteChecked] at h
          exact Option.noConfusion h
  | cons c cs ih =>
      intro n p h
      cases n with
      | zero =>
          rw [splitAtByteChecked] at h
          injection h with h
          subst h
          rfl
      | succ n =>
          rw [splitAtByteChecked] at h
          by_cases hc : c.utf8Size ≤ n + 1
          · rw [if_pos hc] at h
            rcases h2 : splitAtByteChecked cs (n + 1 - c.utf8Size)
                with _ | q
            · rw [h2] at h
              exact Option.noConfusion h
            · rw [h2] at h
              simp only [Option.map_some'] at h
              injection h with h
              subst h
              have hq := ih (n + 1 - c.utf8Size) q h2
              simp [← hq]
          · rw [if_neg hc] at h
            exact Option.noConfusion h

theorem recursiveSplit_bytes (uSent : Str → List Str)
    (maxSize minSize : Nat) :
    ∀ (fuel : Nat) (text : Str) (offset : Nat) (chunks : List Chunk)
      (index : Nat) (out : List Chunk × Nat),
      recursiveSplit uSent fuel text offset maxSize minSize chunks index
        = .ok out →
      contentBytes out.1 ≤ contentBytes chunks + strBytes text := by
  intro fuel
  induction fuel with
  | zero =>
      intro text offset chunks index out hok
      rw [recursiveSplit] at hok
      exact Except.noConfusion hok
  | succ fuel ih =>
      have hbind : ∀ (A B : Str) (off1 off2 : Nat) (chunks : List Chunk)
          (index : Nat) (out : List Chunk × Nat),
          (recursiveSplit uSent fuel A off1 maxSize minSize chunks index
            >>= fun p =>
              recursiveSplit uSent fuel B off2 maxSize minSize p.1 p.2) =
            .ok out →
          contentBytes out.1 ≤
            contentBytes chunks + strBytes A + strBytes B := by
        intro A B off1 off2 chunks index out hok
        cases hr1 : recursiveSplit uSent fuel A off1 maxSize minSize
            chunks index with
        | error e =>
            rw [hr1] at hok
            exact Except.noConfusion hok
        | ok p1 =>
            rw [hr1] at hok
            have hok2 : recursiveSplit uSent fuel B off2 maxSize minSize
                p1.1 p1.2 = .ok out := hok
            have ha := ih A off1 chunks index p1 hr1
            have hb := ih B off2 p1.1 p1.2 out hok2
            omega
      intro text offset chunks index out hok
      rw [recursiveSplit] at hok
      by_cases hsz : strBytes text ≤ maxSize
      · rw [if_pos hsz] at hok
        by_cases hpush : strBytes text ≥ minSize ∨ chunks = []
        · rw [if_pos hpush] at hok
          injection hok with hok
          subst hok
          rw [contentBytes_append]
          simp [contentBytes, mkRecursiveChunk]
        · rw [if_neg hpush] at hok
          injection hok with hok
          subst hok
          exact Nat.le_add_right _ _
      · rw [if_neg hsz] at hok
        cases hf1 : findSentenceSplitPoint uSent text maxSize with
        | some sp =>
            rw [hf1] at hok
            dsimp only at hok
            cases hs1 : splitAtByteChecked text sp with
            | none =>
                rw [hs1] at hok
                exact Except.noConfusion hok
            | some lr =>
                rw [hs1] at hok
                have h := hbind _ _ _ _ _ _ _ hok
                have hsum : strBytes lr.1 + strBytes lr.2 =
                    strBytes text := by
                  rw [← strBytes_append,
                    splitAtByteChecked_append text sp lr hs1]
                have h1 := strBytes_trimEnd_le lr.1
                have h2 := strBytes_trimStart_le lr.2
                omega
        | none =>
        rw [hf1] at hok
        dsimp only at hok
        cases hf2 : findParagraphSplitPoint text maxSize with
        | some sp =>
            rw [hf2] at hok
            dsimp only at hok
            cases hs1 : splitAtByteChecked text sp with
            | none =>
                rw [hs1] at hok
                exact Except.noConfusion hok
            | some lr =>
                rw [hs1] at hok
                have h := hbind _ _ _ _ _ _ _ hok
                have hsum : strBytes lr.1 + strBytes lr.2 =
                    strBytes text := by
                  rw [← strBytes_append,
                    splitAtByteChecked_append text sp lr hs1]
                have h1 := strBytes_trimEnd_le lr.1
                have h2 := strBytes_trimStart_le lr.2
                omega
        | none =>
        rw [hf2] at hok
        dsimp only at hok
        cases hf3 : findWordSplitPoint text maxSize with
        | some sp =>
            rw [hf3] at hok
            dsimp only at hok
            cases hs1 : splitAtByteChecked text sp with
            | none =>
                rw [hs1] at hok
                exact Except.noConfusion hok
            | some lr =>
                rw [hs1] at hok
                have h := hbind _ _ _ _ _ _ _ hok
                have hsum : strBytes lr.1 + strBytes lr.2 =
                    strBytes text := by
                  rw [← strBytes_append,
                    splitAtByteChecked_append text sp lr hs1]
                have h1 := strBytes_trimEnd_le lr.1
                have h2 := strBytes_trimStart_le lr.2
                omega
        | none =>
        rw [hf3] at hok
        dsimp only at hok
        rw [if_pos (by omega : maxSize < strBytes text)] at hok
        cases hs1 : splitAtByteChecked text maxSize with
        | none =>
            rw [hs1] at hok
            exact Except.noConfusion hok
        | some lr =>
            rw [hs1] at hok
            have h := hbind _ _ _ _ _ _ _ hok
            have hsum : strBytes lr.1 + strBytes lr.2 =
                    strBytes text := by
              rw [← strBytes_append,
                    splitAtByteChecked_append text maxSize lr hs1]
            have h1 := strBytes_trimEnd_le lr.1
            have h2 := strBytes_trimStart_le lr.2
            omega

theorem chunkRecursive_bytes (uSent : Str → List Str) (fuel : Nat)
    (text : Str) (maxSize minSize : Nat) (chunks : List Chunk)
    (hok : chunkRecursive uSent fuel text maxSize minSize = .ok chunks) :
    contentBytes chunks ≤ strBytes text := by
  unfold chunkRecursive at hok
  cases hr : recursiveSplit uSent fuel text 0 maxSize minSize [] 0 with
  | error e =>
      rw [hr] at hok
      exact Except.noConfusion hok
  | ok p =>
      rw [hr] at hok
      injection hok with hok
      subst hok
      by_cases h : p.1 = []
      · rw [if_pos h]
        simp [contentBytes, mkRecursiveChunk]
      · rw [if_neg h]
        have := recursiveSplit_bytes uSent maxSize minSize fuel text 0
          [] 0 p hr
        simpa [contentBytes] using this

theorem contentBytes_relabel (subs : List Chunk) (base : Nat) :
    contentBytes (subs.enum.map (fun p =>
      { p.2 with strategy := "smart", index := base + p.1 })) =
      contentBytes subs := by
  unfold contentBytes
  rw [List.map_map]
  have h : ((fun c => strBytes c.content) ∘ (fun p : Nat × Chunk =>
      { p.2 with strategy := "smart", index := base + p.1 })) =
      ((fun c => strBytes c.content) ∘ Prod.snd) := rfl
  rw [h, ← List.map_map, List.enum_map_snd]

theorem smartFold_bytes (uSent : Str → List Str) (size : Nat)
    (hpart : ∀ s : Str, (uSent s).flatten = s) :
    ∀ (l acc : List Chunk),
      contentBytes (l.foldl (smartStep uSent size) acc) ≤
        contentBytes acc + contentBytes l := by
  intro l
  induction l with
  | nil =>
      intro acc
      simp [contentBytes]
  | cons c l ih =>
      intro acc
      rw [List.foldl_cons]
      by_cases h : c.size ≤ size * 2
      · have hstep : smartStep uSent size acc c = acc ++ [c] := by
          rw [smartStep, if_pos h]
        rw [hstep]
        have h1 := ih (acc ++ [c])
        rw [contentBytes_append] at h1
        rw [contentBytes_cons]
        simp only [contentBytes, List.map_cons, List.map_nil,
          List.sum_cons, List.sum_nil] at *
        omega
      · have hstep : smartStep uSent size acc c = acc ++
            (chunkSentence (uSent c.content) size).enum.map (fun p =>
              { p.2 with strategy := "smart", index := acc.length + p.1 }) := by
          rw [smartStep, if_neg h]
        rw [hstep]
        have h1 := ih (acc ++
          (chunkSentence (uSent c.content) size).enum.map (fun p =>
            { p.2 with strategy := "smart", index := acc.length + p.1 }))
        rw [contentBytes_append, contentBytes_relabel] at h1
        have h2 : contentBytes (chunkSentence (uSent c.content) size) ≤
            strBytes c.content := by
          have hb := chunkSentence_bytes (uSent c.content) size
          rw [hpart c.content] at hb
          exact hb
        rw [contentBytes_cons]
        omega

theorem chunkSmart_bytes (uSent : Str → List Str)
    (embed : Str → Option (List ℚ)) (cos : List ℚ → List ℚ → ℚ)
    (th : ℚ) (text : Str) (size : Nat)
    (hpart : ∀ s : Str, (uSent s).flatten = s) :
    contentBytes (chunkSmart uSent embed cos th text size) ≤
      contentBytes (chunkSemantic uSent embed cos th text) := by
  have h := smartFold_bytes uSent size hpart
    (chunkSemantic uSent embed cos th text) []
  rw [contentBytes_nil] at h
  unfold chunkSmart
  omega

/-! ## The claims -/

/-- C1: The index contract `chunks[i].index = i` (contiguous from 0)
holds for Semantic, Sentence, FixedWindow, Paragraph, Code, Dialogue,
TokenAware and Recursive — every strategy except Smart.  For Smart the
claim fails: when an oversized semantic chunk is re-segmented, only the
sub-chunks pushed at that moment are re-indexed by output position (they
are relabelled `"smart"`); a semantic chunk retained afterwards keeps
its ORIGINAL semantic index, so Smart output indices can repeat.  This
theorem states the corrected invariant: positional indices for the
eight whole-output strategies, and positional indices for exactly the
`"smart"`-labelled chunks of the Smart strategy. -/
theorem C1_chunk_indices :
    (∀ (uSent : Str → List Str) (embed : Str → Option (List ℚ))
        (cos : List ℚ → List ℚ → ℚ) (th : ℚ) (text : Str),
      (chunkSemantic uSent embed cos th text).map Chunk.index =
        List.range (chunkSemantic uSent embed cos th text).length) ∧
    (∀ (sentences : List Str) (target : Nat),
      (chunkSentence sentences target).map Chunk.index =
        List.range (chunkSentence sentences target).length) ∧
    (∀ (text : Str) (size overlap : Nat),
      (chunkFixed text size overlap).map Chunk.index =
        List.range (chunkFixed text size overlap).length) ∧
    (∀ (text : Str) (target : Nat),
      (chunkParagraph text target).map Chunk.index =
        List.range (chunkParagraph text target).length) ∧
    (∀ (text : Str) (target : Nat),
      (chunkCode text target).map Chunk.index =
        List.range (chunkCode text target).length) ∧
    (∀ (patternOk : Bool) (detect : Str → Option Str) (text : Str),
      (chunkDialogue patternOk detect text).map Chunk.index =
        List.range (chunkDialogue patternOk detect text).length) ∧
    (∀ (uSent : Str → List Str) (text : Str) (limit : Nat)
        (tok : String),
      (chunkTokenAware uSent text limit tok).map Chunk.index =
        List.range (chunkTokenAware uSent text limit tok).length) ∧
    (∀ (uSent : Str → List Str) (fuel : Nat) (text : Str)
        (maxSize minSize : Nat) (chunks : List Chunk),
      chunkRecursive uSent fuel text maxSize minSize = .ok chunks →
      chunks.map Chunk.index = List.range chunks.length) ∧
    (∀ (uSent : Str → List Str) (embed : Str → Option (List ℚ))
        (cos : List ℚ → List ℚ → ℚ) (th : ℚ) (text : Str) (size : Nat)
        (i : Nat) (c : Chunk),
      (chunkSmart uSent embed cos th text size)[i]? = some c →
      c.strategy = "smart" → c.index = i) := by
  refine ⟨?_, ?_, ?_, ?_, ?_, ?_, ?_, ?_, ?_⟩
  · exact chunkSemantic_indices
  · intro sentences target
    unfold chunkSentence
    rw [List.range_eq_range']
    exact chunkSentenceLoop_indices target sentences [] 0
  · intro text size overlap
    unfold chunkFixed
    by_cases h : text.length = 0
    · rw [if_pos h]
      simp
    · rw [if_neg h, List.range_eq_range']
      exact chunkFixedLoop_index_map text size overlap 0 0
  · intro text target
    unfold chunkParagraph
    rw [List.range_eq_range']
    exact chunkParagraphLoop_indices target (splitOnNlNl text) [] 0
  · intro text target
    unfold chunkCode
    rw [List.range_eq_range']
    exact chunkCodeLoop_indices target (rustLines text) [] 0 0 0
  · intro patternOk detect text
    unfold chunkDialogue
    by_cases hp : ¬ patternOk
    · rw [if_pos hp]
      simp [dialogueRegexErrChunk, List.range_succ]
    · rw [if_neg hp]
      dsimp only
      by_cases hc : chunkDialogueLoop detect (rustLines text).length
          (rustLines text) 0 0 0 0 none [] [] = []
      · rw [if_pos hc]
        simp [dialogueNoSpeakerChunk, List.range_succ]
      · rw [if_neg hc]
        exact chunkDialogueLoop_indices detect (rustLines text).length
          (rustLines text) 0 0 0 0 none [] [] (by simp)
  · intro uSent text limit tok
    unfold chunkTokenAware
    dsimp only
    by_cases h : chunkTokenAwareLoop tok limit (uSent text) [] 0 0 0 0
        [] = []
    · rw [if_pos h]
      simp [tokenAwareFallbackChunk, List.range_succ]
    · rw [if_neg h]
      exact chunkTokenAwareLoop_indices tok limit (uSent text) [] 0 0 0
        0 [] rfl (by simp)
  · intro uSent fuel text maxSize minSize chunks hok
    unfold chunkRecursive at hok
    cases hr : recursiveSplit uSent fuel text 0 maxSize minSize [] 0 with
    | error e =>
        rw [hr] at hok
        exact Except.noConfusion hok
    | ok p =>
        rw [hr] at hok
        injection hok with hok
        subst hok
        by_cases h : p.1 = []
        · rw [if_pos h]
          simp [mkRecursiveChunk, List.range_succ]
        · rw [if_neg h]
          exact (recursiveSplit_indices uSent maxSize minSize fuel text
            0 [] 0 p hr rfl (by simp)).2
  · intro uSent embed cos th text size i c hc hs
    refine smartFold_inv uSent size
      (chunkSemantic uSent embed cos th text) []
      (chunkSemantic_strategy uSent embed cos th text) ?_ i c hc hs
    intro i c h
    simp at h

/-- Witness for C1 at concrete inputs: the first Smart chunk of the
re-segmented run is `"smart"`-labelled and carries its position 0. -/
theorem C1_chunk_indices_witness :
    (chunkSmart uSentFix embedC1 cosC 1 ("Aa. Bb. Cc.".toList) 4)[0]? =
      some ⟨"Aa.".toList, 0, 5, 0, 5, 0, "smart", none, none, none⟩ ∧
    (⟨"Aa.".toList, 0, 5, 0, 5, 0, "smart", none, none,
      none⟩ : Chunk).index = 0 :=
  ⟨by decide,
   C1_chunk_indices.2.2.2.2.2.2.2.2 uSentFix embedC1 cosC 1
     ("Aa. Bb. Cc.".toList)
     4 0 ⟨"Aa.".toList, 0, 5, 0, 5, 0, "smart", none, none, none⟩
     (by decide) (by decide)⟩

/-- C1 counterexample: for `"Aa. Bb. Cc."` with `chunk_size = 4`, Smart
re-segments the first semantic chunk `"Aa.  Bb."` into two sentence
sub-chunks (indices 0 and 1) and then retains the second semantic chunk
with its ORIGINAL index 1, so the output indices are `[0, 1, 1]`, not
`[0, 1, 2]` as the `chunks[i].index = i` contract requires at position
2. -/
theorem C1_smart_index_counterexample :
    (chunkSmart uSentFix embedC1 cosC 1 ("Aa. Bb. Cc.".toList) 4).map
      Chunk.index = [0, 1, 1] ∧
    ([0, 1, 1] : List Nat) ≠ List.range 3 := by
  constructor
  · decide
  · decide

/-- C2: The `size` field is NOT the length of the stored `content` in
general: Sentence and Paragraph compute `size` from the accumulated text
BEFORE `trim()` and then store the trimmed text as `content`, and Code
computes `size` before `trim_end()`.  The correct relation, proved here,
is: every chunk stores `trim(raw)` (`trim_end(raw)` for Code) as content
while `size` is the measure of the untrimmed `raw` in the strategy's
declared unit (characters for Sentence/Paragraph, bytes for Code), so
`size` only bounds the content's measure from above. -/
theorem C2_size_field :
    (∀ (sentences : List Str) (target : Nat),
      ∀ c ∈ chunkSentence sentences target,
        ∃ raw : Str, c.content = rustTrim raw ∧ c.size = raw.length ∧
          c.content.length ≤ c.size) ∧
    (∀ (text : Str) (target : Nat),
      ∀ c ∈ chunkParagraph text target,
        ∃ raw : Str, c.content = rustTrim raw ∧ c.size = raw.length ∧
          c.content.length ≤ c.size) ∧
    (∀ (text : Str) (target : Nat),
      ∀ c ∈ chunkCode text target,
        ∃ raw : Str, c.content = rustTrimEnd raw ∧
          c.size = strBytes raw ∧ strBytes c.content ≤ c.size) := by
  refine ⟨?_, ?_, ?_⟩
  · intro sentences target c hc
    obtain ⟨raw, i, rfl⟩ :=
      chunkSentenceLoop_shape target sentences [] 0 c hc
    exact ⟨raw, rfl, rfl, length_trim_le raw⟩
  · intro text target c hc
    obtain ⟨raw, i, rfl⟩ :=
      chunkParagraphLoop_shape target (splitOnNlNl text) [] 0 c hc
    exact ⟨raw, rfl, rfl, length_trim_le raw⟩
  · intro text target c hc
    obtain ⟨raw, a, b, i, rfl⟩ :=
      chunkCodeLoop_shape target (rustLines text) [] 0 0 0 c hc
    exact ⟨raw, rfl, rfl, strBytes_trimEnd_le raw⟩

/-- Witness for C2 at a concrete input: the single chunk of
`chunk_sentence` on `"Hi. "` stores the trimmed content with the
pre-trim size. -/
theorem C2_size_field_witness :
    ∃ raw : Str,
      (⟨"Hi.".toList, 0, 4, 0, 4, 0, "sentence", none, none,
        none⟩ : Chunk).content = rustTrim raw ∧
      (⟨"Hi.".toList, 0, 4, 0, 4, 0, "sentence", none, none,
        none⟩ : Chunk).size = raw.length ∧
      (⟨"Hi.".toList, 0, 4, 0, 4, 0, "sentence", none, none,
        none⟩ : Chunk).content.length ≤
        (⟨"Hi.".toList, 0, 4, 0, 4, 0, "sentence", none, none,
          none⟩ : Chunk).size :=
  C2_size_field.1 ["Hi. ".toList] 10
    ⟨"Hi.".toList, 0, 4, 0, 4, 0, "sentence", none, none, none⟩
    (by decide)

/-- C2 counterexample: on the single sentence `"Hi. "` (4 characters,
trailing space), `chunk_sentence` returns one chunk whose `content` is
the trimmed `"Hi."` (3 characters) but whose `size` is 4, computed
before the trim — so `size` is not the length of `content`. -/
theorem C2_size_counterexample :
    (chunkSentenceText uSentFix ("Hi. ".toList) 10).map
      (fun c => (c.size, c.content.length)) = [(4, 3)] ∧ (4 : Nat) ≠ 3 := by
  constructor
  · decide
  · decide

/-- The head group `[0]` and the remaining sentences account for all
sentence bytes. -/
theorem groupBytes_head (l : List Str) (h : l ≠ []) :
    groupBytes l [0] + sumBytes (l.drop 1) = sumBytes l := by
  cases l with
  | nil => exact absurd rfl h
  | cons s ss => simp [groupBytes, sumBytes]

/-- C3: Content coverage, corrected.  For FixedWindow the exact
reconstruction at `overlap = 0` additionally requires `size ≥ 1`: with
`size = 0` every window is empty (the loop still advances by the
fallback step 1) and the concatenation is empty, not the input.  For
every other strategy the concatenated content never exceeds the input,
measured in bytes: Sentence and Paragraph (trimming only removes text;
the `"\n\n"` separators swallowed by Paragraph are accounted), Code and
Dialogue (the `"\n"` line joins re-insert at most what `lines()`
removed), TokenAware (sentence groups are concatenated as-is and
word-split pieces re-join split_whitespace output with single spaces)
and Recursive (every emitted piece is a trimmed fragment of the input).
For Semantic the accounting is exact: content bytes plus one byte per
chunk equal input bytes plus one byte per sentence (each sentence join
re-inserts exactly one `" "`), given that the segmenter partitions the
input; Smart is bounded by the semantic output it re-segments, so its
overage is likewise at most the semantic separators. -/
theorem C3_coverage :
    (∀ (text : Str) (size : Nat), 1 ≤ size →
      ((chunkFixed text size 0).map Chunk.content).flatten = text) ∧
    (∀ (uSent : Str → List Str) (text : Str) (target : Nat),
      (uSent text).flatten = text →
      contentBytes (chunkSentenceText uSent text target) ≤
        strBytes text) ∧
    (∀ (text : Str) (target : Nat),
      contentBytes (chunkParagraph text target) ≤ strBytes text) ∧
    (∀ (uSent : Str → List Str) (embed : Str → Option (List ℚ))
        (cos : List ℚ → List ℚ → ℚ) (th : ℚ) (text : Str),
      (uSent text).flatten = text →
      contentBytes (chunkSemantic uSent embed cos th text) +
          (chunkSemantic uSent embed cos th text).length =
        strBytes text + (uSent text).length) ∧
    (∀ (text : Str) (target : Nat),
      contentBytes (chunkCode text target) ≤ strBytes text) ∧
    (∀ (patternOk : Bool) (detect : Str → Option Str) (text : Str),
      contentBytes (chunkDialogue patternOk detect text) ≤
        strBytes text) ∧
    (∀ (uSent : Str → List Str) (text : Str) (limit : Nat)
        (tok : String),
      (uSent text).flatten = text →
      contentBytes (chunkTokenAware uSent text limit tok) ≤
        strBytes text) ∧
    (∀ (uSent : Str → List Str) (fuel : Nat) (text : Str)
        (maxSize minSize : Nat) (chunks : List Chunk),
      chunkRecursive uSent fuel text maxSize minSize = .ok chunks →
      contentBytes chunks ≤ strBytes text) ∧
    (∀ (uSent : Str → List Str) (embed : Str → Option (List ℚ))
        (cos : List ℚ → List ℚ → ℚ) (th : ℚ) (text : Str) (size : Nat),
      (∀ s : Str, (uSent s).flatten = s) →
      contentBytes (chunkSmart uSent embed cos th text size) ≤
        contentBytes (chunkSemantic uSent embed cos th text)) := by
  refine ⟨?_, ?_, ?_, ?_, ?_, ?_, ?_, ?_, ?_⟩
  · intro text size hsize
    unfold chunkFixed
    by_cases h : text.length = 0
    · rw [if_pos h]
      simp [List.length_eq_zero.mp h]
    · rw [if_neg h]
      exact chunkFixedLoop_flatten text size hsize 0 0 (by omega)
  · intro uSent text target hflat
    calc contentBytes (chunkSentenceText uSent text target)
        ≤ strBytes (uSent text).flatten :=
          chunkSentence_bytes (uSent text) target
      _ = strBytes text := by rw [hflat]
  · intro text target
    have h := chunkParagraphLoop_bytes target (splitOnNlNl text) [] 0
    rw [if_pos rfl, sepBytes_splitOnNlNl] at h
    unfold chunkParagraph
    omega
  · intro uSent embed cos th text hflat
    unfold chunkSemantic
    dsimp only
    by_cases hs : uSent text = []
    · rw [if_pos hs, hs]
      have htext : text = [] := by rw [← hflat, hs]; rfl
      rw [htext]
      simp [contentBytes, strBytes]
    · rw [if_neg hs]
      have hlen : 1 ≤ (uSent text).length :=
        List.length_pos.mpr hs
      have h := semGroupLoop_bytes (uSent text)
        (semanticEmbeddings embed (uSent text)) cos th
        ((uSent text).length - 1) 1 [0] 0 [] (by simp)
      have hrest : restBytes (uSent text) ((uSent text).length - 1) 1 =
          sumBytes ((uSent text).drop 1) :=
        restBytes_sum (uSent text) ((uSent text).length - 1) 1 (by omega)
      have hsum : groupBytes (uSent text) [0] +
          restBytes (uSent text) ((uSent text).length - 1) 1 =
          strBytes text := by
        rw [hrest]
        have h2 : strBytes text = sumBytes (uSent text) := by
          conv_lhs => rw [← hflat]
          rw [strBytes_flatten]
        rw [h2]
        exact groupBytes_head (uSent text) hs
      rw [contentBytes_nil] at h
      simp only [List.length_nil, List.length_cons] at h
      omega
  · exact chunkCode_bytes
  · exact chunkDialogue_bytes
  · exact chunkTokenAware_bytes
  · exact chunkRecursive_bytes
  · intro uSent embed cos th text size hpart
    exact chunkSmart_bytes uSent embed cos th text size hpart

/-- Witness for C3 at concrete inputs: FixedWindow with `size = 2`,
`overlap = 0` reconstructs `"abc"`, and the sentence chunking of
`"Hi. "` stays within the input's bytes. -/
theorem C3_coverage_witness :
    ((chunkFixed ("abc".toList) 2 0).map Chunk.content).flatten =
      "abc".toList ∧
    contentBytes (chunkSentenceText uSentFix ("Hi. ".toList) 10) ≤
      strBytes ("Hi. ".toList) :=
  ⟨C3_coverage.1 ("abc".toList) 2 (by decide),
   C3_coverage.2.1 uSentFix ("Hi. ".toList) 10 (by decide)⟩

/-- C3 counterexample: `chunk_fixed("a", size = 0, overlap = 0)` returns
chunks whose concatenated content is empty — the input `"a"` is NOT
reconstructed, so the FixedWindow reconstruction needs `size ≥ 1`. -/
theorem C3_coverage_counterexample :
    ((chunkFixed ("a".toList) 0 0).map Chunk.content).flatten = [] ∧
    ("a".toList : Str) ≠ [] := by
  constructor
  · simp +decide [chunkFixed, chunkFixedLoop]
  · decide

/-- C4 (code bug): the Recursive strategy's last-resort character cut is
`text.split_at(max_size)`, a raw BYTE offset, with no char-boundary
adjustment.  On multi-byte input the byte offset `max_size` can fall
inside a UTF-8 character, and `str::split_at` then panics.  Concretely,
for input `"ééé"` (3 characters, 6 bytes) with `max_chunk_size = 1`,
`min_chunk_size = 0`, no sentence/paragraph/word split point exists, the
character branch cuts at byte 1 — the middle of the first `é` — and the
run panics instead of returning chunks (the claimed "returns normally
for every input and every max_chunk_size ≥ 1" fails). -/
theorem C4_recursive_panics :
    chunkRecursive uSentFix 20 ("ééé".toList) 1 0 = .error .panic ∧
    strBytes ("ééé".toList) = 6 ∧ ("ééé".toList).length = 3 := by
  refine ⟨?_, ?_, ?_⟩
  · decide
  · decide
  · decide

/-- C5: `chunk_fixed` advances the window start by `size - overlap`, or
by 1 when `overlap ≥ size`; every chunk's size is at most `size` and
every chunk before the last has size exactly `size`; chunk 0 reports
overlap 0 and every later chunk reports `min(overlap, its size)`; and
the concrete run on `"abcdefghij"` with `size = 4`, `overlap = 1` yields
exactly `"abcd"`/`"defg"`/`"ghij"` with indices 0,1,2 and overlaps
0,1,1. -/
theorem C5_fixed_window :
    ((chunkFixed ("abcdefghij".toList) 4 1).map
        (fun c => (c.content, c.index, c.overlap, c.size)) =
      [("abcd".toList, 0, 0, 4), ("defg".toList, 1, 1, 4),
        ("ghij".toList, 2, 1, 4)]) ∧
    (∀ (text : Str) (size overlap i : Nat) (c c' : Chunk),
      (chunkFixed text size overlap)[i]? = some c →
      (chunkFixed text size overlap)[i + 1]? = some c' →
      c'.start = c.start +
        (if overlap < size then size - overlap else 1)) ∧
    (∀ (text : Str) (size overlap : Nat),
      ∀ c ∈ chunkFixed text size overlap, c.size ≤ size) ∧
    (∀ (text : Str) (size overlap i : Nat) (c : Chunk),
      (chunkFixed text size overlap)[i]? = some c →
      i + 1 < (chunkFixed text size overlap).length → c.size = size) ∧
    (∀ (text : Str) (size overlap i : Nat) (c : Chunk),
      (chunkFixed text size overlap)[i]? = some c →
      c.overlap = if i = 0 then 0 else min overlap c.size) := by
  refine ⟨?_, ?_, ?_, ?_, ?_⟩
  · simp +decide [chunkFixed, chunkFixedLoop]
  · intro text size overlap i c c' hc hc'
    unfold chunkFixed at hc hc'
    by_cases h : text.length = 0
    · rw [if_pos h] at hc
      simp at hc
    · rw [if_neg h] at hc hc'
      exact chunkFixedLoop_start_step text size overlap 0 0 i c c' hc hc'
  · intro text size overlap c hc
    unfold chunkFixed at hc
    by_cases h : text.length = 0
    · rw [if_pos h] at hc
      simp at hc
    · rw [if_neg h] at hc
      exact chunkFixedLoop_size_le text size overlap 0 0 c hc
  · intro text size overlap i c hc hlen
    unfold chunkFixed at hc hlen
    by_cases h : text.length = 0
    · rw [if_pos h] at hc
      simp at hc
    · rw [if_neg h] at hc hlen
      exact chunkFixedLoop_size_full text size overlap 0 0 i c hc hlen
  · intro text size overlap i c hc
    unfold chunkFixed at hc
    by_cases h : text.length = 0
    · rw [if_pos h] at hc
      simp at hc
    · rw [if_neg h] at hc
      have := chunkFixedLoop_overlap text size overlap 0 0 i c hc
      simpa using this

/-- Witness for C5 at a concrete input: the second chunk of
`chunk_fixed("abcdefghij", 4, 1)` reports overlap `min 1 size`. -/
theorem C5_fixed_window_witness :
    (⟨"defg".toList, 3, 7, 1, 4, 1, "fixed", none, none,
      none⟩ : Chunk).overlap =
      if (1 : Nat) = 0 then 0 else
        min 1 (⟨"defg".toList, 3, 7, 1, 4, 1, "fixed", none, none,
          none⟩ : Chunk).size :=
  C5_fixed_window.2.2.2.2 ("abcdefghij".toList) 4 1 1
    ⟨"defg".toList, 3, 7, 1, 4, 1, "fixed", none, none, none⟩
    (by simp +decide [chunkFixed, chunkFixedLoop])

/-- C6: Recursive chunk size bounds, corrected.  Every chunk of a
normally returning run has size at most `max_chunk_size` (sizes in
bytes, matching `text.len()`).  The minimum-size guarantee as claimed —
"unless it is the sole chunk" — is wrong: the undersized-piece escape in
`recursive_split` is `chunks.is_empty()`, which exempts whichever piece
happens to be processed FIRST, even when more chunks follow.  The
correct guarantee, proved here, is that every chunk AFTER the first has
size at least `min_chunk_size`; the first chunk may be undersized even
in a multi-chunk result. -/
theorem C6_recursive_bounds :
    ∀ (uSent : Str → List Str) (fuel : Nat) (text : Str)
      (maxSize minSize : Nat) (chunks : List Chunk),
      chunkRecursive uSent fuel text maxSize minSize = .ok chunks →
      (∀ c ∈ chunks, c.size ≤ maxSize) ∧
      (∀ (i : Nat) (c : Chunk), chunks[i]? = some c → 1 ≤ i →
        minSize ≤ c.size) := by
  intro uSent fuel text maxSize minSize chunks hok
  exact chunkRecursive_bounds uSent fuel text maxSize minSize chunks hok

/-- Witness for C6 at a concrete input: the sole chunk of a successful
run on `"hello"` (`max = 10`, `min = 3`) respects the maximum size. -/
theorem C6_recursive_bounds_witness :
    (⟨"hello".toList, 0, 5, 0, 5, 0, "recursive", none, none,
      some "recursive split (size: 5)"⟩ : Chunk).size ≤ 10 :=
  (C6_recursive_bounds uSentFix 5 ("hello".toList) 10 3
    [⟨"hello".toList, 0, 5, 0, 5, 0, "recursive", none, none,
      some "recursive split (size: 5)"⟩]
    (by decide)).1
    ⟨"hello".toList, 0, 5, 0, 5, 0, "recursive", none, none,
      some "recursive split (size: 5)"⟩
    (by decide)

/-- C6 counterexample: for `"ab. XXXXXXXXXXXXXXXXXXXX"` with
`max_chunk_size = 10`, `min_chunk_size = 5`, the run returns THREE
chunks of sizes `[3, 10, 10]`: the first chunk (`"ab."`, size 3) is
below `min_chunk_size` although it is not the sole chunk in the result —
the `chunks.is_empty()` escape only exempts the first chunk, not a sole
chunk. -/
theorem C6_min_size_counterexample :
    (chunkRecursive uSentFix 20 ("ab. XXXXXXXXXXXXXXXXXXXX".toList) 10
        5).map (List.map Chunk.size) = .ok [3, 10, 10] ∧
    (chunkRecursive uSentFix 20 ("ab. XXXXXXXXXXXXXXXXXXXX".toList) 10
        5).map List.length = .ok 3 ∧
    (3 : Nat) < 5 := by
  refine ⟨?_, ?_, ?_⟩
  · decide
  · decide
  · decide

/-- C7: Dialogue with no speaker match, corrected.  On non-empty input
where the speaker pattern matches no line, the `chunks.is_empty()`
fallback never fires: the accumulated lines are flushed as one final
chunk by the post-loop flush, so the result is a single chunk holding
the whole input (lines rejoined with `"\n"`) — but its `source` is the
ordinary flush annotation `"speaker: Unknown (lines 1-N)"`, NOT the
claimed `"no speakers detected - treated as single chunk"` string (that
string is only reachable when the input has no lines at all, i.e. is
empty). -/
theorem C7_no_speaker :
    ∀ (detect : Str → Option Str) (text : Str), text ≠ [] →
      (∀ l ∈ rustLines text, detect l = none) →
      (chunkDialogue true detect text).map Chunk.content =
        [joinNl (rustLines text)] ∧
      (chunkDialogue true detect text).map Chunk.source =
        [some ("speaker: Unknown (lines 1-" ++
          Nat.repr (rustLines text).length ++ ")")] := by
  intro detect text htext hdet
  have hlines : rustLines text ≠ [] := rustLines_ne_nil text htext
  have hloop := chunkDialogueLoop_noSpeaker detect
    (rustLines text).length (rustLines text) 0 0 0 0 none [] [] hdet
  rw [if_neg (by simp [hlines])] at hloop
  unfold chunkDialogue
  rw [if_neg (by simp)]
  dsimp only
  rw [hloop, if_neg (by simp)]
  constructor
  · simp [mkDialogueChunk]
  · simp only [List.nil_append, List.map_cons, List.map_nil,
      mkDialogueChunk]
    have h1 : Nat.repr (0 + 1) = "1" := rfl
    rw [h1]
    simp only [String.append_assoc]
    rfl

/-- Witness for C7 at a concrete input: on `"ab"` with a never-matching
pattern, the single chunk holds the whole input and the
`"speaker: Unknown"` source annotation. -/
theorem C7_no_speaker_witness :
    (chunkDialogue true (fun _ => none) ("ab".toList)).map Chunk.content =
      [joinNl (rustLines ("ab".toList))] ∧
    (chunkDialogue true (fun _ => none) ("ab".toList)).map Chunk.source =
      [some ("speaker: Unknown (lines 1-" ++
        Nat.repr (rustLines ("ab".toList)).length ++ ")")] :=
  C7_no_speaker (fun _ => none) ("ab".toList) (by decide) (by decide)

/-- C7 counterexample: on the non-empty input `"hi"` with a
never-matching speaker pattern, the single returned chunk's source is
`"speaker: Unknown (lines 1-1)"`, not the claimed
`"no speakers detected - treated as single chunk"`. -/
theorem C7_no_speaker_counterexample :
    (chunkDialogue true (fun _ => none) ("hi".toList)).map Chunk.source =
      [some "speaker: Unknown (lines 1-1)"] ∧
    some "speaker: Unknown (lines 1-1)" ≠
      some "no speakers detected - treated as single chunk" := by
  constructor
  · decide
  · decide

/-- C8: Semantic fallback, corrected.  Empty input yields an empty chunk
list, and when embedding requests fail the call still completes normally
with every chunk's embedding either absent or the substituted zero
vector — but the substituted zero vector is the HARDCODED
`vec![0.0; 768]`, not "the provider's declared dimensionality": the
dimension 768 is baked in regardless of what dimension the provider
actually returns. -/
theorem C8_semantic_fallback :
    (∀ (uSent : Str → List Str) (embed : Str → Option (List ℚ))
        (cos : List ℚ → List ℚ → ℚ) (th : ℚ) (text : Str),
      uSent text = [] → chunkSemantic uSent embed cos th text = []) ∧
    (∀ (uSent : Str → List Str) (cos : List ℚ → List ℚ → ℚ) (th : ℚ)
        (text : Str),
      ∀ c ∈ chunkSemantic uSent (fun _ => none) cos th text,
        c.embedding = none ∨
          c.embedding = some (List.replicate 768 0)) := by
  constructor
  · intro uSent embed cos th text hs
    simp [chunkSemantic, hs]
  · intro uSent cos th text c hc
    unfold chunkSemantic at hc
    dsimp only at hc
    by_cases hs : uSent text = []
    · rw [if_pos hs] at hc
      simp at hc
    · rw [if_neg hs] at hc
      have hemb : semanticEmbeddings (fun _ => none) (uSent text) =
          (uSent text).map (fun _ => List.replicate 768 (0 : ℚ)) := rfl
      rw [hemb] at hc
      have hlen : 1 ≤ (uSent text).length := List.length_pos.mpr hs
      exact semGroupLoop_embedding_zero (uSent text) cos th
        ((uSent text).length - 1) 1 [0] 0 [] (by omega) (by omega)
        (by simp) c hc

/-- Witness for C8 at a concrete input: with every embedding request
failing, the single chunk of `"Ss. Tt."` carries the 768-dimensional
zero vector. -/
theorem C8_semantic_fallback_witness :
    (⟨"Ss.  Tt.".toList, 0, 8, 0, 8, 0, "semantic", none,
      some (List.replicate 768 0), none⟩ : Chunk).embedding = none ∨
    (⟨"Ss.  Tt.".toList, 0, 8, 0, 8, 0, "semantic", none,
      some (List.replicate 768 0), none⟩ : Chunk).embedding =
      some (List.replicate 768 0) :=
  C8_semantic_fallback.2 uSentFix cosC 1 ("Ss. Tt.".toList)
    ⟨"Ss.  Tt.".toList, 0, 8, 0, 8, 0, "semantic", none,
      some (List.replicate 768 0), none⟩ (by decide)

/-- C8 counterexample: a provider returning 4-dimensional embeddings
(`embedC8`) whose request fails for the second sentence of `"Ss. Tt."`
gets a 768-dimensional zero vector substituted — not one of the
provider's declared dimensionality 4. -/
theorem C8_dimension_counterexample :
    (chunkSemantic uSentFix embedC8 cosC 1 ("Ss. Tt.".toList)).map
        Chunk.embedding =
      [some [1, 0, 0, 0], some (List.replicate 768 0)] ∧
    (List.replicate 768 (0 : ℚ)).length ≠
      ([1, 0, 0, 0] : List ℚ).length := by
  constructor
  · decide
  · decide

/-- C9: TokenAware token budget, confirmed.  For the `"word"` tokenizer
(whitespace-delimited words plus one token per ASCII punctuation mark)
and the `"gpt"` tokenizer (`ceil(len/4)`), every chunk either comes from
the word-split fallback applied to a single over-budget sentence
(recognizable by its `"split sentence tokens: ~"` source annotation) or
has `countTokens tok content ≤ token_limit`.  The hypothesis that the
segmenter returns no sentences only for empty text covers the
whole-text fallback chunk (reachable only when the sentence list is
empty). -/
theorem C9_token_budget :
    ∀ (uSent : Str → List Str) (text : Str) (limit : Nat) (tok : String),
      (tok = "word" ∨ tok = "gpt") →
      (uSent text = [] → text = []) →
      ∀ c ∈ chunkTokenAware uSent text limit tok,
        (∃ k, c.source = some ("split sentence tokens: ~" ++ k)) ∨
        countTokens tok c.content ≤ limit := by
  intro uSent text limit tok htok hpart c hc
  unfold chunkTokenAware at hc
  dsimp only at hc
  by_cases hempty :
      chunkTokenAwareLoop tok limit (uSent text) [] 0 0 0 0 [] = []
  · rw [if_pos hempty] at hc
    simp at hc
    subst hc
    right
    have hsent : uSent text = [] := by
      by_contra hs
      have hlen := chunkTokenAwareLoop_length tok limit (uSent text)
        [] 0 0 0 0 [] (Or.inl hs)
      rw [hempty] at hlen
      simp at hlen
    have htext : text = [] := hpart hsent
    subst htext
    simp only [tokenAwareFallbackChunk]
    rw [countTokens_nil]
    omega
  · rw [if_neg hempty] at hc
    exact chunkTokenAwareLoop_inv tok limit htok (uSent text) [] 0 0 0 0
      [] rfl (by omega) (by simp) c hc

/-- Witness for C9 at a concrete input: the single chunk of the
`"word"`-tokenized run on `"Hi. "` with limit 10 respects the budget. -/
theorem C9_token_budget_witness :
    (∃ k, (⟨"Hi. ".toList, 0, 4, 0, 4, 0, "token-aware", none, none,
      some "tokens: 2 (limit: 10)"⟩ : Chunk).source =
        some ("split sentence tokens: ~" ++ k)) ∨
    countTokens "word" (⟨"Hi. ".toList, 0, 4, 0, 4, 0, "token-aware",
      none, none, some "tokens: 2 (limit: 10)"⟩ : Chunk).content ≤ 10 :=
  C9_token_budget uSentFix ("Hi. ".toList) 10 "word" (Or.inl rfl)
    (by decide)
    ⟨"Hi. ".toList, 0, 4, 0, 4, 0, "token-aware", none, none,
      some "tokens: 2 (limit: 10)"⟩ (by decide)

/-- C10: Oversized sentences are never split by the Sentence strategy,
confirmed.  Any sentence longer than `target_size` is emitted as its own
chunk `mkSentenceChunk s i` — whose content is exactly that (trimmed)
sentence and whose size is the full sentence's character count, so no
chunk boundary falls inside it.  And on `"A. B. C."` with
`target_size = 100` the whole input comes back as the single chunk
`"A. B. C."`. -/
theorem C10_oversized_sentence :
    (∀ (sentences : List Str) (target : Nat) (s : Str),
      s ∈ sentences → target < s.length →
      ∃ i, mkSentenceChunk s i ∈ chunkSentence sentences target) ∧
    (chunkSentenceText uSentFix ("A. B. C.".toList) 100).map
      Chunk.content = ["A. B. C.".toList] := by
  constructor
  · intro sentences target s hs hlen
    exact chunkSentenceLoop_oversized target sentences [] 0 s hs hlen
  · decide

/-- Witness for C10 at a concrete input: the 15-character sentence
`"Loooooooooong. "` exceeds `target_size = 5` and appears as its own
chunk. -/
theorem C10_oversized_sentence_witness :
    ∃ i, mkSentenceChunk ("Loooooooooong. ".toList) i ∈
      chunkSentence ["Loooooooooong. ".toList, "B.".toList] 5 :=
  C10_oversized_sentence.1 ["Loooooooooong. ".toList, "B.".toList] 5
    ("Loooooooooong. ".toList) (by decide) (by decide)
